import Mathlib

/-!
Verification of the `justified` text-justification library
(`justified/justified.py`): a Knuth-Plass dynamic-programming line
breaker (`KnuthPlassFormatter`) plus a greedy alternative
(`GreedyFormatter`), both rendering lines with the same
packing/expansion primitives.

Strings are modelled as `List Char`.  The pseudo-random shuffle
`Random(unspaced_words).shuffle(gaps)` is modelled as an explicit
function parameter `sh : List Char → List Nat → List Nat` (seed,
gap-size list); properties that depend on it assume only that it
returns a permutation of its input, which `random.shuffle` guarantees.
Loops of the source that can genuinely diverge (the space-distribution
`while` loop, the break-chain walk, the memoized recursion) are
modelled with explicit fuel returning `Option`; `none` models
non-termination (or an uncaught exception) of the source.
-/

set_option autoImplicit false

namespace Justified

/-- A word: a token produced by Python `str.split()`. -/
abbrev Word := List Char

/-- The whitespace predicate of Python `str.split()` (ASCII part;
inputs here are ASCII). -/
def isPySpace (c : Char) : Bool :=
  c = ' ' || c = '\t' || c = '\n' || c = '\r' || c = '\x0b' || c = '\x0c'

theorem dropWhile_length_le {α : Type} (p : α → Bool) (l : List α) :
    (l.dropWhile p).length ≤ l.length := by
  induction l with
  | nil => simp [List.dropWhile]
  | cons a l ih =>
    simp only [List.dropWhile]
    cases p a
    · simp
    · simpa using Nat.le_succ_of_le ih

/-- Python `text.split()` with explicit structural fuel (any fuel at
least the string length gives the same answer, proved below). -/
def pySplitF : Nat → List Char → List Word
  | _, [] => []
  | 0, _ :: _ => []
  | fuel + 1, c :: cs =>
    if isPySpace c then pySplitF fuel cs
    else (c :: cs.takeWhile (fun d => !isPySpace d)) ::
      pySplitF fuel (cs.dropWhile (fun d => !isPySpace d))

/-- Python `text.split()`: split on runs of whitespace, dropping
empty tokens. -/
def pySplit (s : List Char) : List Word := pySplitF s.length s

theorem pySplitF_fuel : ∀ (f1 f2 : Nat) (s : List Char),
    s.length ≤ f1 → s.length ≤ f2 → pySplitF f1 s = pySplitF f2 s := by
  intro f1
  induction f1 with
  | zero =>
    intro f2 s h1 _
    have hs : s = [] := by
      cases s with
      | nil => rfl
      | cons c cs => simp at h1
    rw [hs]
    cases f2 <;> rfl
  | succ f1 ih =>
    intro f2 s h1 h2
    cases s with
    | nil => cases f2 <;> rfl
    | cons c cs =>
      obtain ⟨g2, hg2⟩ : ∃ g2, f2 = g2 + 1 := by
        cases f2 with
        | zero => simp at h2
        | succ g2 => exact ⟨g2, rfl⟩
      subst hg2
      rw [pySplitF, pySplitF]
      simp only [List.length_cons] at h1 h2
      by_cases hc : isPySpace c
      · rw [if_pos hc, if_pos hc]
        exact ih g2 cs (by omega) (by omega)
      · rw [if_neg hc, if_neg hc]
        have hd := dropWhile_length_le (fun d => !isPySpace d) cs
        rw [ih g2 _ (by omega) (by omega)]

/-- `self.packed(words)`: the words joined by single spaces. -/
def packed (ws : List Word) : Word := List.intercalate [' '] ws

/-- Python slice `words[i:j]`. -/
def slice (ws : List Word) (i j : Nat) : List Word :=
  (ws.drop i).take (j - i)

/-- Badness values: a natural number or `+inf` (the Python code uses
floats `(width - length) ** 3.0` and `float('inf')`; all finite values
arising here are exact cubes of naturals). -/
inductive Cost where
  | fin : Nat → Cost
  | inf : Cost
deriving DecidableEq, Repr

/-- Addition of badness values (`inf` absorbs). -/
def Cost.add : Cost → Cost → Cost
  | .fin a, .fin b => .fin (a + b)
  | _, _ => .inf

/-- Strict comparison used by Python `min` (`float` `<`; note
`inf < inf` is false). -/
def Cost.lt : Cost → Cost → Bool
  | .inf, _ => false
  | .fin _, .inf => true
  | .fin a, .fin b => a < b

/-- `badness(i, j)`: infinite if `words[i:j]` packed exceeds the
width, else the cubed slack. -/
def badness (ws : List Word) (w : Nat) (i j : Nat) : Cost :=
  let length := (packed (slice ws i j)).length
  if w < length then .inf else .fin ((w - length) ^ 3)

/-- Python `min` over a nonempty list keyed on the first component:
an element replaces the current best only when strictly smaller, so
the first occurrence of the minimal key wins. -/
def minFirst : Cost × Nat → List (Cost × Nat) → Cost × Nat
  | best, [] => best
  | best, p :: ps => minFirst (if (Cost.lt p.1 best.1) = true then p else best) ps

/-- The candidate break positions `n` examined by
`for n in reversed(range(i, j))`: the list `[j-1, j-2, ..., i]`. -/
def candIdxs (i j : Nat) : List Nat := (List.range' i (j - i)).reverse

/-! ### Line rendering (`packed` / `expanded`) -/

/-- One traversal of `for idx, gap in enumerate(gaps): ...` inside the
space-distribution `while` loop: add one space to each gap in order,
stopping early when `space_left` hits 0 (`if not space_left: break`).
`space_left` is an `Int` exactly as in Python (it can be negative, in
which case it never reaches 0 by decrements). -/
def onePass : Int → List Nat → Int × List Nat
  | s, [] => (s, [])
  | s, g :: gs =>
    if s = 0 then (s, g :: gs)
    else
      let r := onePass (s - 1) gs
      (r.1, (g + 1) :: r.2)

/-- The `while space_left:` loop of `expanded`, with fuel counting
outer iterations; `none` models non-termination of the source loop
(which happens when `space_left` cannot reach exactly 0, e.g. no gaps
and positive slack, or negative slack). -/
def distLoop : Nat → Int → List Nat → Option (List Nat)
  | fuel, s, gs =>
    if s = 0 then some gs
    else
      match fuel with
      | 0 => none
      | f + 1 =>
        let r := onePass s gs
        distLoop f r.1 r.2

/-- The base gap-size list of `expanded` before the shuffle:
`gaps = [0]*(len(words)-1)` filled round-robin by the `while` loop.
`space_left + 1` outer passes always suffice when the loop terminates
at all (each pass with a nonempty gap list consumes at least one unit
of nonnegative slack). -/
def gapsFor (ws : List Word) (w : Nat) : Option (List Nat) :=
  let unspaced : Word := ws.flatten
  let spaceLeft : Int := (w : Int) - unspaced.length
  let gaps : List Nat := List.replicate (ws.length - 1) 0
  distLoop (spaceLeft.toNat + 1) spaceLeft gaps

/-- The final render of `expanded`: each word concatenated with its
trailing gap of spaces, via `zip(words, spaces)`. -/
def glue (ws : List Word) (gs : List Nat) : Word :=
  ((ws.zip gs).map (fun p => p.1 ++ List.replicate p.2 ' ')).flatten

/-- `self.expanded(words, width)`, with the shuffle abstracted as
`sh` (seeded by the unspaced concatenation, exactly as
`Random(unspaced_words).shuffle(gaps)`). -/
def expandedF (sh : List Char → List Nat → List Nat)
    (ws : List Word) (w : Nat) : Option Word :=
  if ws.length = 1 then some (ws.headD [])
  else
    match gapsFor ws w with
    | none => none
    | some gaps1 =>
      let unspaced : Word := ws.flatten
      let gaps2 := sh unspaced gaps1
      some (glue ws (gaps2 ++ [0]))

/-! ### The break planner -/

/-- Pure value and break choice of `best_break(i, N)`, `N` the
document length (the only end index the program ever passes):
the first component is the returned minimum total badness, the second
the break position the call records in `self._parent[i]`.  The
terminal branch of the source (`j == len(self.words)` and the span
fits) degenerates to the single test `len(packed(words[i:])) <= width`
because `j = N` here; the `[]` branch is unreachable (when the span
does not fit it is nonempty, so there is at least one candidate; on
an empty candidate list the source's `min([])` would raise). -/
def bbP (ws : List Word) (w : Nat) (i : Nat) : Cost × Nat :=
  if (packed (ws.drop i)).length ≤ w then (Cost.fin 0, ws.length)
  else
    match (candIdxs i ws.length).attach.map
        (fun p => ((badness ws w i (p.1 + 1)).add (bbP ws w (p.1 + 1)).1, p.1 + 1)) with
    | [] => (Cost.inf, ws.length)
    | v :: vs => minFirst v vs
termination_by ws.length - i
decreasing_by
  have hp := p.2
  simp only [candIdxs, List.mem_reverse, List.mem_range'_1] at hp
  omega

/-- The mutable state of one `format` call: `self._memo` (keyed by
the pair `(i, j)`) and `self._parent` (keyed by the start index),
modelled as association lists whose most recent write is at the
head (so lookup sees the latest binding, like a `dict`). -/
structure St where
  memo : List ((Nat × Nat) × Cost)
  parent : List (Nat × Nat)

/-- `self._memo[(i, j)]` (`try ... except KeyError`). -/
def lookupM (k : Nat × Nat) : List ((Nat × Nat) × Cost) → Option Cost
  | [] => none
  | e :: rest => if e.1 = k then some e.2 else lookupM k rest

/-- `self._parent[a]` (raises `KeyError`, i.e. `none`, if absent). -/
def lookupP (k : Nat) : List (Nat × Nat) → Option Nat
  | [] => none
  | e :: rest => if e.1 = k then some e.2 else lookupP k rest

/-- The loop `for n in reversed(range(i, j)):`
`vals.append((badness(i, n+1) + best_break(n+1, j), n+1))`, over the
remaining candidate list, with the recursive `best_break` at the
next-lower fuel passed as `bb`. -/
def evalCandsGo (ws : List Word) (w : Nat)
    (bb : Nat → Nat → St → Option (Cost × St)) (i j : Nat) :
    List Nat → St → Option (List (Cost × Nat) × St)
  | [], st => some ([], st)
  | n :: ns, st =>
    match bb (n + 1) j st with
    | none => none
    | some (v, st1) =>
      match evalCandsGo ws w bb i j ns st1 with
      | none => none
      | some (rest, st2) =>
        some (((badness ws w i (n + 1)).add v, n + 1) :: rest, st2)

/-- `best_break(i, j)` with the instance state passed explicitly and
fuel bounding the recursion depth (`none` = fuel exhausted; the real
recursion depth is at most `j - i + 1`, proved below). -/
def bestBreakF (ws : List Word) (w : Nat) :
    Nat → Nat → Nat → St → Option (Cost × St)
  | 0, _, _, _ => none
  | fuel + 1, i, j, st =>
    match lookupM (i, j) st.memo with
    | some v => some (v, st)
    | none =>
      if j = ws.length ∧ (packed (slice ws i j)).length ≤ w then
        some (Cost.fin 0,
          ⟨((i, j), Cost.fin 0) :: st.memo, (i, j) :: st.parent⟩)
      else
        match evalCandsGo ws w
            (fun i2 j2 st2 => bestBreakF ws w fuel i2 j2 st2) i j
            (candIdxs i j) st with
        | none => none
        | some (vals, st1) =>
          match vals with
          | [] => none
          | v :: vs =>
            let b := minFirst v vs
            some (b.1, ⟨((i, j), b.1) :: st1.memo, (i, b.2) :: st1.parent⟩)

/-- The candidate loop at a given fuel. -/
def evalCands (ws : List Word) (w : Nat) (fuel i j : Nat)
    (ns : List Nat) (st : St) : Option (List (Cost × Nat) × St) :=
  evalCandsGo ws w (fun i2 j2 st2 => bestBreakF ws w fuel i2 j2 st2)
    i j ns st

/-! ### The formatters -/

/-- `KnuthPlassFormatter.wrapped_lines`: walk the parent chain from
`a` with next break `b`, yielding expanded lines until the segment
ending at the document length, which is yielded packed.  Fuel bounds
the number of yielded lines (`none` = the walk does not finish, e.g.
a missing key or a cycle). -/
def wrappedF (sh : List Char → List Nat → List Nat)
    (ws : List Word) (w : Nat) (parent : List (Nat × Nat)) :
    Nat → Nat → Nat → Option (List Word)
  | 0, _, _ => none
  | fuel + 1, a, b =>
    if b = ws.length then some [packed (slice ws a b)]
    else
      match expandedF sh (slice ws a b) w with
      | none => none
      | some line =>
        match lookupP b parent with
        | none => none
        | some b2 =>
          match wrappedF sh ws w parent fuel b b2 with
          | none => none
          | some rest => some (line :: rest)

/-- The list of rendered lines of
`KnuthPlassFormatter(width).format(text)`. -/
def kpLines (sh : List Char → List Nat → List Nat)
    (text : List Char) (w : Nat) : Option (List Word) :=
  match bestBreakF (pySplit text) w ((pySplit text).length + 2) 0
      (pySplit text).length ⟨[], []⟩ with
  | none => none
  | some r =>
    match lookupP 0 r.2.parent with
    | none => none
    | some b0 =>
      wrappedF sh (pySplit text) w r.2.parent ((pySplit text).length + 2) 0 b0

/-- `'\n'.join(...)`. -/
def joinNl (lines : List Word) : List Char := List.intercalate ['\n'] lines

/-- `KnuthPlassFormatter(width).format(text)` on a fresh instance. -/
def kpFormat (sh : List Char → List Nat → List Nat)
    (text : List Char) (w : Nat) : Option (List Char) :=
  (kpLines sh text w).map joinNl

/-- A `KnuthPlassFormatter` instance: `self.width` plus whatever the
mutable attributes `_memo`, `_parent`, `words` hold from earlier
calls. -/
structure Fmt where
  width : Nat
  memo : List ((Nat × Nat) × Cost)
  parent : List (Nat × Nat)
  words : List Word

/-- `format` as a method call on an instance: it overwrites `_memo`
and `_parent` with fresh empty tables and `words` with the split
input before planning, then renders; returns the result together
with the instance state left behind. -/
def kpFormatInst (sh : List Char → List Nat → List Nat)
    (f : Fmt) (text : List Char) : Option (List Char) × Fmt :=
  let ws := pySplit text
  match bestBreakF ws f.width (ws.length + 2) 0 ws.length ⟨[], []⟩ with
  | none => (none, ⟨f.width, [], [], ws⟩)
  | some r =>
    let out :=
      match lookupP 0 r.2.parent with
      | none => none
      | some b0 =>
        (wrappedF sh ws f.width r.2.parent (ws.length + 2) 0 b0).map joinNl
    (out, ⟨f.width, r.2.memo, r.2.parent, ws⟩)

/-- The line-partition loop of `GreedyFormatter.format`: words are
added to the current line while the packed form fits; otherwise the
current line (possibly empty!) is appended and a new line starts
with the word; a nonempty final line is appended at the end. -/
def greedyGo (w : Nat) : List Word → List Word → List (List Word)
  | cur, [] => if cur.isEmpty then [] else [cur]
  | cur, word :: rest =>
    let tmp := cur ++ [word]
    if (packed tmp).length ≤ w then greedyGo w tmp rest
    else cur :: greedyGo w [word] rest

/-- `GreedyFormatter.wrapped_lines`: every line but the last is
expanded, the last is packed. -/
def greedyRender (sh : List Char → List Nat → List Nat) (w : Nat) :
    List (List Word) → Option (List Word)
  | [] => some []
  | [ws] => some [packed ws]
  | ws :: rest =>
    match expandedF sh ws w with
    | none => none
    | some line =>
      match greedyRender sh w rest with
      | none => none
      | some ls => some (line :: ls)

/-- `GreedyFormatter(width).format(text)`. -/
def greedyFormat (sh : List Char → List Nat → List Nat)
    (text : List Char) (w : Nat) : Option (List Char) :=
  (greedyRender sh w (greedyGo w [] (pySplit text))).map joinNl

/-! ### Basic lemmas: `Cost`, `packed`, `glue`, `slice`, `candIdxs` -/

theorem Cost.lt_irrefl (a : Cost) : Cost.lt a a = false := by
  cases a <;> simp [Cost.lt]

theorem Cost.not_lt (a b : Cost) (h : Cost.lt a b = false) :
    b = a ∨ Cost.lt b a = true := by
  cases a <;> cases b <;> simp_all [Cost.lt]
  omega

theorem Cost.lt_asymm (a b : Cost) (h : Cost.lt a b = true) :
    Cost.lt b a = false := by
  cases a <;> cases b <;> simp_all [Cost.lt]
  omega

theorem Cost.lt_of_lt_of_not_lt (a b c : Cost) (h1 : Cost.lt a b = true)
    (h2 : Cost.lt c b = false) : Cost.lt a c = true := by
  cases a <;> cases b <;> cases c <;> simp_all [Cost.lt]
  omega

theorem Cost.add_ne_inf_left (a b : Cost) (h : Cost.add a b ≠ Cost.inf) :
    a ≠ Cost.inf := by
  cases a <;> cases b <;> simp_all [Cost.add]

theorem Cost.lt_inf (a : Cost) (h : a ≠ Cost.inf) : Cost.lt a Cost.inf = true := by
  cases a <;> simp_all [Cost.lt]

/-- Sum of the word lengths of a line. -/
def totalLen (ws : List Word) : Nat := (ws.map List.length).sum

theorem packed_nil : packed [] = [] := rfl

theorem packed_single (v : Word) : packed [v] = v := by
  simp [packed, List.intercalate]

theorem packed_cons₂ (v u : Word) (ws : List Word) :
    packed (v :: u :: ws) = v ++ ' ' :: packed (u :: ws) := by
  simp [packed, List.intercalate, List.intersperse]

theorem packed_length (ws : List Word) (h : ws ≠ []) :
    (packed ws).length = totalLen ws + (ws.length - 1) := by
  induction ws with
  | nil => simp at h
  | cons v ws ih =>
    cases ws with
    | nil => simp [packed_single, totalLen]
    | cons u ws =>
      rw [packed_cons₂]
      have := ih (by simp)
      simp only [List.length_append, List.length_cons, this, totalLen,
        List.map_cons, List.sum_cons, List.length_cons]
      omega

theorem packed_length_le (ws : List Word) :
    totalLen ws ≤ (packed ws).length := by
  cases ws with
  | nil => simp [packed_nil, totalLen]
  | cons v ws =>
    rw [packed_length _ (by simp)]
    omega

theorem glue_nil_left (gs : List Nat) : glue [] gs = [] := by
  simp [glue]

theorem glue_cons (v : Word) (ws : List Word) (g : Nat) (gs : List Nat) :
    glue (v :: ws) (g :: gs) = v ++ List.replicate g ' ' ++ glue ws gs := by
  simp [glue]

theorem glue_length (ws : List Word) (gs : List Nat)
    (h : gs.length = ws.length) :
    (glue ws gs).length = totalLen ws + gs.sum := by
  induction ws generalizing gs with
  | nil => cases gs <;> simp_all [glue, totalLen]
  | cons v ws ih =>
    cases gs with
    | nil => simp at h
    | cons g gs =>
      rw [glue_cons]
      have := ih gs (by simpa using h)
      simp only [List.length_append, this, totalLen, List.map_cons,
        List.sum_cons, List.length_replicate]
      omega

theorem slice_full (ws : List Word) (i : Nat) :
    slice ws i ws.length = ws.drop i := by
  unfold slice
  apply List.take_of_length_le
  simp

theorem slice_append_drop (ws : List Word) (a b : Nat) (hab : a ≤ b) :
    slice ws a b ++ ws.drop b = ws.drop a := by
  unfold slice
  rw [show ws.drop b = (ws.drop a).drop (b - a) by rw [List.drop_drop]; congr 1; omega]
  exact List.take_append_drop _ _

theorem slice_length (ws : List Word) (a b : Nat) (ha : a ≤ b)
    (hb : b ≤ ws.length) : (slice ws a b).length = b - a := by
  unfold slice
  rw [List.length_take, List.length_drop]
  omega

theorem candIdxs_mem (i j n : Nat) : n ∈ candIdxs i j ↔ i ≤ n ∧ n < j := by
  unfold candIdxs
  rw [List.mem_reverse, List.mem_range'_1]
  omega

theorem candIdxs_eq_nil (i j : Nat) (h : j ≤ i) : candIdxs i j = [] := by
  unfold candIdxs
  simp [Nat.sub_eq_zero_of_le h]

theorem candIdxs_ne_nil (i j : Nat) (h : i < j) : candIdxs i j ≠ [] := by
  intro he
  have : j - 1 ∈ candIdxs i j := (candIdxs_mem i j (j - 1)).2 (by omega)
  simp [he] at this

theorem candIdxs_head (i j : Nat) (h : i < j) :
    (candIdxs i j).head? = some (j - 1) := by
  unfold candIdxs
  rw [List.head?_reverse]
  obtain ⟨n, hn⟩ : ∃ n, j - i = n + 1 := ⟨j - i - 1, by omega⟩
  rw [hn, List.range'_1_concat]
  rw [List.getLast?_concat]
  congr 1
  omega

theorem candIdxs_pairwise (i j : Nat) :
    (candIdxs i j).Pairwise (fun a b => b < a) := by
  unfold candIdxs
  rw [List.pairwise_reverse]
  exact List.pairwise_lt_range' i (j - i) 1 (by omega)

/-! ### `minFirst` lemmas -/

theorem Cost.lt_trans (a b c : Cost) (h1 : Cost.lt a b = true)
    (h2 : Cost.lt b c = true) : Cost.lt a c = true := by
  cases a <;> cases b <;> cases c <;> simp_all [Cost.lt]
  omega

theorem minFirst_cons_pos (best p : Cost × Nat) (ps : List (Cost × Nat))
    (h : Cost.lt p.1 best.1 = true) :
    minFirst best (p :: ps) = minFirst p ps := by
  rw [minFirst, h]
  simp only [if_true]

theorem minFirst_cons_neg (best p : Cost × Nat) (ps : List (Cost × Nat))
    (h : Cost.lt p.1 best.1 = false) :
    minFirst best (p :: ps) = minFirst best ps := by
  rw [minFirst, h]
  simp only [Bool.false_eq_true, if_false]

theorem minFirst_mem (best : Cost × Nat) (l : List (Cost × Nat)) :
    minFirst best l ∈ best :: l := by
  induction l generalizing best with
  | nil => simp [minFirst]
  | cons p ps ih =>
    cases hcb : Cost.lt p.1 best.1 with
    | true =>
      rw [minFirst_cons_pos _ _ _ hcb]
      exact List.mem_cons_of_mem _ (ih p)
    | false =>
      rw [minFirst_cons_neg _ _ _ hcb]
      rcases List.mem_cons.1 (ih best) with h | h
      · rw [h]; exact List.mem_cons_self _ _
      · exact List.mem_cons_of_mem _ (List.mem_cons_of_mem _ h)

/-- `minFirst` either keeps the initial best or switches to a list
element of strictly smaller key. -/
theorem minFirst_strict (best : Cost × Nat) (l : List (Cost × Nat)) :
    minFirst best l = best ∨
      (minFirst best l ∈ l ∧ Cost.lt (minFirst best l).1 best.1 = true) := by
  induction l generalizing best with
  | nil => simp [minFirst]
  | cons p ps ih =>
    cases hcb : Cost.lt p.1 best.1 with
    | true =>
      rw [minFirst_cons_pos _ _ _ hcb]
      rcases ih p with h | h
      · right
        exact ⟨by rw [h]; exact List.mem_cons_self _ _, by rw [h]; exact hcb⟩
      · right
        exact ⟨List.mem_cons_of_mem _ h.1, Cost.lt_trans _ _ _ h.2 hcb⟩
    | false =>
      rw [minFirst_cons_neg _ _ _ hcb]
      rcases ih best with h | h
      · left; exact h
      · right; exact ⟨List.mem_cons_of_mem _ h.1, h.2⟩

/-- Nothing in the considered list is strictly below the result of
`minFirst` (Python `min` returns a minimum). -/
theorem minFirst_min (best : Cost × Nat) (l : List (Cost × Nat)) :
    ∀ q ∈ best :: l, Cost.lt q.1 (minFirst best l).1 = false := by
  induction l generalizing best with
  | nil =>
    intro q hq
    rcases List.mem_cons.1 hq with h | h
    · rw [h]; simp [minFirst, Cost.lt_irrefl]
    · simp at h
  | cons p ps ih =>
    intro q hq
    cases hcb : Cost.lt p.1 best.1 with
    | true =>
      rw [minFirst_cons_pos _ _ _ hcb]
      rcases List.mem_cons.1 hq with h | h
      · -- q = best: the result is at most p which is strictly below best
        rw [h]
        have hpr := ih p p (List.mem_cons_self _ _)
        rcases Cost.not_lt _ _ hpr with he | hlt
        · rw [← he] at hcb
          exact Cost.lt_asymm _ _ hcb
        · exact Cost.lt_asymm _ _ (Cost.lt_trans _ _ _ hlt hcb)
      · exact ih p q h
    | false =>
      rw [minFirst_cons_neg _ _ _ hcb]
      rcases List.mem_cons.1 hq with h | h
      · exact ih best q (by rw [h]; exact List.mem_cons_self _ _)
      · rcases List.mem_cons.1 h with h2 | h2
        · -- q = p and p is not strictly below best: if p were
          -- strictly below the result, it would be strictly below
          -- best as well, a contradiction
          rw [h2]
          have hbr := ih best best (List.mem_cons_self _ _)
          by_contra hcon
          rw [Bool.not_eq_false] at hcon
          have := Cost.lt_of_lt_of_not_lt _ _ _ hcon hbr
          rw [this] at hcb
          simp at hcb
        · exact ih best q (List.mem_cons_of_mem _ h2)

/-- On a list whose second components strictly decrease (as the
candidate lists here do), the first minimum kept by Python `min` is
the one with the largest second component among all minima. -/
theorem minFirst_tie_le (best : Cost × Nat) (l : List (Cost × Nat))
    (hpw : (best :: l).Pairwise (fun a b => b.2 < a.2)) :
    ∀ q ∈ best :: l, q.1 = (minFirst best l).1 →
      q.2 ≤ (minFirst best l).2 := by
  induction l generalizing best with
  | nil =>
    intro q hq _
    rcases List.mem_cons.1 hq with h | h
    · rw [h]; simp [minFirst]
    · simp at h
  | cons p ps ih =>
    intro q hq htie
    cases hcb : Cost.lt p.1 best.1 with
    | true =>
      rw [minFirst_cons_pos _ _ _ hcb] at htie ⊢
      rcases List.mem_cons.1 hq with h | h
      · -- q = best ties with the minimum: impossible since p < best
        exfalso
        have hpr := minFirst_min p ps p (List.mem_cons_self _ _)
        rw [h] at htie
        rw [htie] at hcb
        rw [hcb] at hpr
        simp at hpr
      · exact ih p (List.pairwise_cons.1 hpw).2 q h htie
    | false =>
      rw [minFirst_cons_neg _ _ _ hcb] at htie ⊢
      have hsub : (best :: ps).Pairwise (fun a b : Cost × Nat => b.2 < a.2) :=
        List.Pairwise.sublist
          (List.cons_sublist_cons.2 (List.sublist_cons_self _ _)) hpw
      rcases List.mem_cons.1 hq with h | h
      · exact ih best hsub q (by rw [h]; exact List.mem_cons_self _ _) htie
      · rcases List.mem_cons.1 h with h2 | h2
        · -- q = p: the running best stays `best`; if p ties with the
          -- result, the result is `best` itself, whose second
          -- component dominates p's by `hpw`
          rcases minFirst_strict best ps with hs | hs
          · rw [h2, hs]
            have := List.rel_of_pairwise_cons hpw (List.mem_cons_self p ps)
            omega
          · exfalso
            rw [h2] at htie
            rw [htie] at hcb
            rw [hcb] at hs
            simp at hs
        · exact ih best hsub q (List.mem_cons_of_mem _ h2) htie

/-! ### Pure planner lemmas -/

/-- The pure candidate entry `(badness(i, n+1) + best_break(n+1, N), n+1)`. -/
def cand (ws : List Word) (w : Nat) (i n : Nat) : Cost × Nat :=
  ((badness ws w i (n + 1)).add (bbP ws w (n + 1)).1, n + 1)

/-- The pure candidate list `vals` of `best_break(i, N)`. -/
def valsP (ws : List Word) (w : Nat) (i : Nat) : List (Cost × Nat) :=
  (candIdxs i ws.length).map (cand ws w i)

theorem attach_map_cand (ws : List Word) (w : Nat) (i : Nat) :
    ((candIdxs i ws.length).attach.map
      (fun p => ((badness ws w i (p.1 + 1)).add (bbP ws w (p.1 + 1)).1, p.1 + 1))) =
      valsP ws w i :=
  List.attach_map_coe (candIdxs i ws.length)
    (fun n => ((badness ws w i (n + 1)).add (bbP ws w (n + 1)).1, n + 1))

theorem bbP_eq (ws : List Word) (w : Nat) (i : Nat) :
    bbP ws w i =
      if (packed (ws.drop i)).length ≤ w then (Cost.fin 0, ws.length)
      else
        match valsP ws w i with
        | [] => (Cost.inf, ws.length)
        | v :: vs => minFirst v vs := by
  rw [bbP, attach_map_cand]

theorem bbP_fits (ws : List Word) (w : Nat) (i : Nat)
    (h : (packed (ws.drop i)).length ≤ w) :
    bbP ws w i = (Cost.fin 0, ws.length) := by
  rw [bbP_eq, if_pos h]

theorem fits_of_ge (ws : List Word) (w : Nat) (i : Nat)
    (h : ws.length ≤ i) : (packed (ws.drop i)).length ≤ w := by
  rw [List.drop_eq_nil_of_le h, packed_nil]
  simp

theorem lt_length_of_not_fits (ws : List Word) (w : Nat) (i : Nat)
    (h : ¬ (packed (ws.drop i)).length ≤ w) : i < ws.length := by
  by_contra hc
  exact h (fits_of_ge ws w i (by omega))

theorem bbP_general (ws : List Word) (w : Nat) (i : Nat)
    (h : ¬ (packed (ws.drop i)).length ≤ w) :
    ∃ v vs, valsP ws w i = v :: vs ∧ bbP ws w i = minFirst v vs := by
  have hi : i < ws.length := lt_length_of_not_fits ws w i h
  cases hv : valsP ws w i with
  | nil =>
    exfalso
    have : candIdxs i ws.length = [] := by
      have := congrArg List.length hv
      simpa [valsP] using this
    exact candIdxs_ne_nil i ws.length hi this
  | cons v vs =>
    refine ⟨v, vs, rfl, ?_⟩
    rw [bbP_eq, if_neg h, hv]

theorem valsP_pairwise (ws : List Word) (w : Nat) (i : Nat) :
    (valsP ws w i).Pairwise (fun a b => b.2 < a.2) := by
  unfold valsP
  refine List.Pairwise.map _ ?_ (candIdxs_pairwise i ws.length)
  intro a b hab
  simpa [cand] using hab

theorem valsP_head (ws : List Word) (w : Nat) (i : Nat)
    (hi : i < ws.length) :
    ∃ vs, valsP ws w i = cand ws w i (ws.length - 1) :: vs := by
  unfold valsP
  cases hc : candIdxs i ws.length with
  | nil => exact absurd hc (candIdxs_ne_nil i ws.length hi)
  | cons n ns =>
    have h1 : (candIdxs i ws.length).head? = some n := by rw [hc]; rfl
    rw [candIdxs_head i ws.length hi] at h1
    have h2 : ws.length - 1 = n := Option.some.inj h1
    refine ⟨ns.map (cand ws w i), ?_⟩
    rw [List.map_cons, h2]

/-- The break position chosen at `i` is within `(i, N]` (whenever
`i < N`). -/
theorem bbC_bounds (ws : List Word) (w : Nat) (i : Nat)
    (hi : i < ws.length) :
    i < (bbP ws w i).2 ∧ (bbP ws w i).2 ≤ ws.length := by
  by_cases hf : (packed (ws.drop i)).length ≤ w
  · rw [bbP_fits ws w i hf]
    exact ⟨hi, Nat.le_refl _⟩
  · obtain ⟨v, vs, hv, hbb⟩ := bbP_general ws w i hf
    have hm : minFirst v vs ∈ v :: vs := minFirst_mem v vs
    rw [← hv] at hm
    obtain ⟨n, hn, hq⟩ := List.mem_map.1 hm
    have hn2 := (candIdxs_mem i ws.length n).1 hn
    rw [hbb, ← hq]
    simp only [cand]
    omega

theorem badness_ne_inf (ws : List Word) (w : Nat) (i j : Nat)
    (h : badness ws w i j ≠ Cost.inf) :
    (packed (slice ws i j)).length ≤ w := by
  unfold badness at h
  by_cases hc : w < (packed (slice ws i j)).length
  · simp [hc] at h
  · omega

/-- KEY: if the planner's chosen break at `i` is not the document
end, then the chosen line `words[i:c]` fits: its packed length is at
most the width.  (When every candidate is infinite, the first
minimum kept by Python `min` is the first-listed candidate, which is
the one ending at the document length.) -/
theorem bbC_fits_of_lt (ws : List Word) (w : Nat) (i : Nat)
    (h2 : (bbP ws w i).2 < ws.length) :
    ¬ (packed (ws.drop i)).length ≤ w ∧
      (packed (slice ws i (bbP ws w i).2)).length ≤ w := by
  by_cases hf : (packed (ws.drop i)).length ≤ w
  · rw [bbP_fits ws w i hf] at h2
    omega
  · refine ⟨hf, ?_⟩
    have hi : i < ws.length := lt_length_of_not_fits ws w i hf
    obtain ⟨v, vs, hv, hbb⟩ := bbP_general ws w i hf
    -- first: the minimum value is finite
    have hfin : (minFirst v vs).1 ≠ Cost.inf := by
      intro hinf
      obtain ⟨vs2, hhead⟩ := valsP_head ws w i hi
      rw [hv] at hhead
      have hveq : v = cand ws w i (ws.length - 1) := by
        have := congrArg List.head? hhead
        simpa using this
      have hv2 : v.2 = ws.length := by
        rw [hveq]; simp only [cand]; omega
      -- v's key cannot be strictly below inf = minimum, so v ties
      have hmin := minFirst_min v vs v (List.mem_cons_self _ _)
      rw [hinf] at hmin
      have hvinf : v.1 = Cost.inf := by
        by_contra hne
        rw [Cost.lt_inf v.1 hne] at hmin
        simp at hmin
      have hpw : (v :: vs).Pairwise (fun a b : Cost × Nat => b.2 < a.2) := by
        rw [← hv]; exact valsP_pairwise ws w i
      have := minFirst_tie_le v vs hpw v (List.mem_cons_self _ _)
        (by rw [hvinf, hinf])
      rw [← hbb] at this
      omega
    rw [← hbb] at hfin
    -- the chosen entry is a candidate, so its key is badness + rest
    have hm : minFirst v vs ∈ v :: vs := minFirst_mem v vs
    rw [← hv] at hm
    rw [← hbb] at hm
    obtain ⟨n, _, hq⟩ := List.mem_map.1 hm
    have h1 : (bbP ws w i).1 = (badness ws w i (n + 1)).add (bbP ws w (n + 1)).1 := by
      rw [← hq]; simp [cand]
    have h2' : (bbP ws w i).2 = n + 1 := by rw [← hq]; simp [cand]
    rw [h1] at hfin
    have := Cost.add_ne_inf_left _ _ hfin
    rw [h2']
    exact badness_ne_inf ws w i (n + 1) this

/-- Tie-breaking (pure side): every candidate whose total equals the
minimum has break position at most the chosen one, and the chosen
position is itself attained by a candidate. -/
theorem bbC_tie_max (ws : List Word) (w : Nat) (i : Nat)
    (h : ¬ (packed (ws.drop i)).length ≤ w) :
    (∃ n ∈ candIdxs i ws.length, cand ws w i n = bbP ws w i) ∧
      ∀ n ∈ candIdxs i ws.length,
        (cand ws w i n).1 = (bbP ws w i).1 → n + 1 ≤ (bbP ws w i).2 := by
  obtain ⟨v, vs, hv, hbb⟩ := bbP_general ws w i h
  have hpw : (v :: vs).Pairwise (fun a b : Cost × Nat => b.2 < a.2) := by
    rw [← hv]; exact valsP_pairwise ws w i
  constructor
  · have hm : minFirst v vs ∈ v :: vs := minFirst_mem v vs
    rw [← hv] at hm
    obtain ⟨n, hn, hq⟩ := List.mem_map.1 hm
    exact ⟨n, hn, by rw [hq, hbb]⟩
  · intro n hn htie
    have hmem : cand ws w i n ∈ v :: vs := by
      rw [← hv]
      exact List.mem_map.2 ⟨n, hn, rfl⟩
    have := minFirst_tie_le v vs hpw (cand ws w i n) hmem (by rw [← hbb]; exact htie)
    rw [← hbb] at this
    simpa [cand] using this

/-! ### Refinement: the stateful memoized recursion computes `bbP` -/

theorem lookupM_mem (k : Nat × Nat) (memo : List ((Nat × Nat) × Cost))
    (v : Cost) (h : lookupM k memo = some v) : (k, v) ∈ memo := by
  induction memo with
  | nil => simp [lookupM] at h
  | cons e rest ih =>
    rw [lookupM] at h
    by_cases he : e.1 = k
    · rw [if_pos he] at h
      have hv := Option.some.inj h
      have he2 : e = (k, v) := by
        obtain ⟨a, b⟩ := e
        simp only at he hv
        rw [he, hv]
      rw [← he2]
      exact List.mem_cons_self _ _
    · rw [if_neg he] at h
      exact List.mem_cons_of_mem _ (ih h)

theorem lookupP_eq (parent : List (Nat × Nat)) (f : Nat → Nat)
    (hall : ∀ e ∈ parent, e.2 = f e.1) (k b : Nat)
    (hmem : (k, b) ∈ parent) : lookupP k parent = some (f k) := by
  induction parent with
  | nil => simp at hmem
  | cons e rest ih =>
    rw [lookupP]
    by_cases he : e.1 = k
    · rw [if_pos he]
      have := hall e (List.mem_cons_self _ _)
      rw [this, he]
    · rw [if_neg he]
      rcases List.mem_cons.1 hmem with h | h
      · exfalso; apply he; rw [← h]
      · exact ih (fun e2 he2 => hall e2 (List.mem_cons_of_mem _ he2)) h

theorem lookupM_eq (memo : List ((Nat × Nat) × Cost)) (f : Nat × Nat → Cost)
    (hall : ∀ e ∈ memo, e.2 = f e.1) (k : Nat × Nat) (b : Cost)
    (hmem : (k, b) ∈ memo) : lookupM k memo = some (f k) := by
  induction memo with
  | nil => simp at hmem
  | cons e rest ih =>
    rw [lookupM]
    by_cases he : e.1 = k
    · rw [if_pos he]
      have := hall e (List.mem_cons_self _ _)
      rw [this, he]
    · rw [if_neg he]
      rcases List.mem_cons.1 hmem with h | h
      · exfalso; apply he; rw [← h]
      · exact ih (fun e2 he2 => hall e2 (List.mem_cons_of_mem _ he2)) h

theorem bestBreakF_succ_hit (ws : List Word) (w : Nat) (fuel i j : Nat)
    (st : St) (v : Cost) (h : lookupM (i, j) st.memo = some v) :
    bestBreakF ws w (fuel + 1) i j st = some (v, st) := by
  rw [bestBreakF, h]

theorem bestBreakF_succ_term (ws : List Word) (w : Nat) (fuel i j : Nat)
    (st : St) (h : lookupM (i, j) st.memo = none)
    (ht : j = ws.length ∧ (packed (slice ws i j)).length ≤ w) :
    bestBreakF ws w (fuel + 1) i j st =
      some (Cost.fin 0,
        ⟨((i, j), Cost.fin 0) :: st.memo, (i, j) :: st.parent⟩) := by
  rw [bestBreakF, h, if_pos ht]

theorem bestBreakF_succ_general (ws : List Word) (w : Nat) (fuel i j : Nat)
    (st st1 : St) (v : Cost × Nat) (vs : List (Cost × Nat))
    (h : lookupM (i, j) st.memo = none)
    (ht : ¬(j = ws.length ∧ (packed (slice ws i j)).length ≤ w))
    (he : evalCands ws w fuel i j (candIdxs i j) st = some (v :: vs, st1)) :
    bestBreakF ws w (fuel + 1) i j st =
      some ((minFirst v vs).1,
        ⟨((i, j), (minFirst v vs).1) :: st1.memo,
          (i, (minFirst v vs).2) :: st1.parent⟩) := by
  rw [evalCands] at he
  rw [bestBreakF, h, if_neg ht, he]

theorem evalCands_nil (ws : List Word) (w : Nat) (fuel i j : Nat) (st : St) :
    evalCands ws w fuel i j [] st = some ([], st) := rfl

theorem evalCands_cons (ws : List Word) (w : Nat) (fuel i j n : Nat)
    (ns : List Nat) (st st1 st2 : St) (v : Cost)
    (rest : List (Cost × Nat))
    (h1 : bestBreakF ws w fuel (n + 1) j st = some (v, st1))
    (h2 : evalCands ws w fuel i j ns st1 = some (rest, st2)) :
    evalCands ws w fuel i j (n :: ns) st =
      some (((badness ws w i (n + 1)).add v, n + 1) :: rest, st2) := by
  rw [evalCands] at h2 ⊢
  rw [evalCandsGo, h1]
  dsimp only
  rw [h2]

/-- The state invariant: every memo entry holds the pure value of
`best_break` at its key (and was stored with end index the document
length), every parent entry holds the pure break choice of its start
index, and every memoized start index also has a parent entry. -/
structure Inv (ws : List Word) (w : Nat) (st : St) : Prop where
  memo_val : ∀ e ∈ st.memo, e.1.2 = ws.length ∧ e.2 = (bbP ws w e.1.1).1
  parent_val : ∀ e ∈ st.parent, e.2 = (bbP ws w e.1).2
  memo_parent : ∀ e ∈ st.memo, ∃ b, (e.1.1, b) ∈ st.parent

theorem Inv_empty (ws : List Word) (w : Nat) : Inv ws w ⟨[], []⟩ := by
  refine ⟨?_, ?_, ?_⟩ <;> intro e he <;> simp at he

/-- Refinement of the candidate loop: given the refinement property
for `best_break` at the same fuel, the loop returns exactly the pure
candidate list, preserves the invariant and existing entries, and
records a parent entry for every candidate position examined. -/
theorem evalCands_ok (ws : List Word) (w : Nat) (fuel : Nat)
    (hbb : ∀ i st, Inv ws w st → ws.length - i < fuel → i ≤ ws.length →
      ∃ st', bestBreakF ws w fuel i ws.length st = some ((bbP ws w i).1, st') ∧
        Inv ws w st' ∧
        (∀ e ∈ st.memo, e ∈ st'.memo) ∧
        (∀ e ∈ st.parent, e ∈ st'.parent) ∧
        ((i, (bbP ws w i).2) ∈ st'.parent) ∧
        (∀ e ∈ st'.parent, e ∈ st.parent ∨ (i ≤ e.1 ∧ e.1 ≤ ws.length)) ∧
        (lookupM (i, ws.length) st.memo = none →
          ¬ (packed (ws.drop i)).length ≤ w →
          ∀ k, i < k → k ≤ ws.length →
            (k, (bbP ws w k).2) ∈ st'.parent) ∧
        (((i, ws.length), (bbP ws w i).1) ∈ st'.memo)) :
    ∀ i ns st, Inv ws w st →
      (∀ n ∈ ns, i ≤ n ∧ n < ws.length ∧ ws.length - (n + 1) < fuel) →
      ∃ st', evalCands ws w fuel i ws.length ns st =
          some (ns.map (cand ws w i), st') ∧
        Inv ws w st' ∧
        (∀ e ∈ st.memo, e ∈ st'.memo) ∧
        (∀ e ∈ st.parent, e ∈ st'.parent) ∧
        (∀ n ∈ ns, (n + 1, (bbP ws w (n + 1)).2) ∈ st'.parent) ∧
        (∀ e ∈ st'.parent, e ∈ st.parent ∨ (i + 1 ≤ e.1 ∧ e.1 ≤ ws.length)) := by
  intro i ns
  induction ns with
  | nil =>
    intro st hInv _
    exact ⟨st, evalCands_nil ws w fuel i ws.length st, hInv,
      fun e he => he, fun e he => he, by intro n hn; simp at hn,
      fun e he => Or.inl he⟩
  | cons n ns ihn =>
    intro st hInv hcond
    have hn := hcond n (List.mem_cons_self _ _)
    obtain ⟨st1, hb1, hInv1, hm1, hp1, hsel1, hrange1, _, _⟩ :=
      hbb (n + 1) st hInv (by omega) (by omega)
    obtain ⟨st2, he2, hInv2, hm2, hp2, hsel2, hrange2⟩ :=
      ihn st1 hInv1 (fun m hm => hcond m (List.mem_cons_of_mem _ hm))
    refine ⟨st2, ?_, hInv2, fun e he => hm2 e (hm1 e he),
      fun e he => hp2 e (hp1 e he), ?_, ?_⟩
    · have heq := evalCands_cons ws w fuel i ws.length n ns st st1 st2
        ((bbP ws w (n + 1)).1) (ns.map (cand ws w i)) hb1 he2
      rw [heq]
      rfl
    · intro m hm
      rcases List.mem_cons.1 hm with h | h
      · rw [h]; exact hp2 _ hsel1
      · exact hsel2 m h
    · intro e he
      rcases hrange2 e he with h | h
      · rcases hrange1 e h with h2 | h2
        · exact Or.inl h2
        · right; omega
      · right; omega

/-- Refinement of `best_break(i, N)` by the pure recursion `bbP`:
from any invariant-respecting state and with fuel exceeding `N - i`,
the call succeeds, returns the pure minimum badness, preserves the
invariant and existing entries, records the pure break choice for
`i`, only adds entries with start indices in `[i, N]`, and — when it
actually runs its candidate loop — records break choices for every
start index in `(i, N]`. -/
theorem bestBreakF_ok (ws : List Word) (w : Nat) :
    ∀ fuel i st, Inv ws w st → ws.length - i < fuel → i ≤ ws.length →
    ∃ st', bestBreakF ws w fuel i ws.length st = some ((bbP ws w i).1, st') ∧
      Inv ws w st' ∧
      (∀ e ∈ st.memo, e ∈ st'.memo) ∧
      (∀ e ∈ st.parent, e ∈ st'.parent) ∧
      ((i, (bbP ws w i).2) ∈ st'.parent) ∧
      (∀ e ∈ st'.parent, e ∈ st.parent ∨ (i ≤ e.1 ∧ e.1 ≤ ws.length)) ∧
      (lookupM (i, ws.length) st.memo = none →
        ¬ (packed (ws.drop i)).length ≤ w →
        ∀ k, i < k → k ≤ ws.length →
          (k, (bbP ws w k).2) ∈ st'.parent) ∧
      (((i, ws.length), (bbP ws w i).1) ∈ st'.memo) := by
  intro fuel
  induction fuel with
  | zero =>
    intro i st _ hfuel _
    omega
  | succ fuel ih =>
    intro i st hInv hfuel hiN
    cases hlk : lookupM (i, ws.length) st.memo with
    | some v =>
      -- memo hit: nothing changes
      have hmem := lookupM_mem _ _ _ hlk
      have h1 := hInv.memo_val _ hmem
      obtain ⟨b, hb⟩ := hInv.memo_parent _ hmem
      have hb2 := hInv.parent_val _ hb
      have h12 : v = (bbP ws w i).1 := h1.2
      refine ⟨st, ?_, hInv, fun e he => he, fun e he => he, ?_,
        fun e he => Or.inl he, ?_, ?_⟩
      · rw [bestBreakF_succ_hit ws w fuel i _ st v hlk, h12]
      · have hb2' : b = (bbP ws w i).2 := hb2
        rw [← hb2']
        exact hb
      · intro hnone
        cases hnone
      · rw [← h12]
        exact hmem
    | none =>
      by_cases hfit : (packed (ws.drop i)).length ≤ w
      · -- terminal case: last line, exempt from badness
        have hslice : (packed (slice ws i ws.length)).length ≤ w := by
          rw [slice_full]; exact hfit
        have heq := bestBreakF_succ_term ws w fuel i ws.length st hlk ⟨rfl, hslice⟩
        have hbbp := bbP_fits ws w i hfit
        refine ⟨⟨((i, ws.length), Cost.fin 0) :: st.memo,
          (i, ws.length) :: st.parent⟩, ?_, ?_, ?_, ?_, ?_, ?_, ?_, ?_⟩
        · rw [heq, hbbp]
        · refine ⟨?_, ?_, ?_⟩
          · intro e he
            rcases List.mem_cons.1 he with h | h
            · rw [h]
              refine ⟨rfl, ?_⟩
              show Cost.fin 0 = (bbP ws w i).1
              rw [hbbp]
            · exact hInv.memo_val _ h
          · intro e he
            rcases List.mem_cons.1 he with h | h
            · rw [h]
              show ws.length = (bbP ws w i).2
              rw [hbbp]
            · exact hInv.parent_val _ h
          · intro e he
            rcases List.mem_cons.1 he with h | h
            · exact ⟨ws.length, by rw [h]; exact List.mem_cons_self _ _⟩
            · obtain ⟨b, hb⟩ := hInv.memo_parent _ h
              exact ⟨b, List.mem_cons_of_mem _ hb⟩
        · exact fun e he => List.mem_cons_of_mem _ he
        · exact fun e he => List.mem_cons_of_mem _ he
        · rw [hbbp]; exact List.mem_cons_self _ _
        · intro e he
          rcases List.mem_cons.1 he with h | h
          · right; rw [h]; exact ⟨Nat.le_refl _, hiN⟩
          · exact Or.inl h
        · intro _ hnf
          exact absurd hfit hnf
        · rw [hbbp]
          exact List.mem_cons_self _ _
      · -- general case: run the candidate loop
        have hi : i < ws.length := lt_length_of_not_fits ws w i hfit
        have hconds : ∀ n ∈ candIdxs i ws.length,
            i ≤ n ∧ n < ws.length ∧ ws.length - (n + 1) < fuel := by
          intro n hn
          have := (candIdxs_mem _ _ n).1 hn
          omega
        obtain ⟨st1, hec, hInv1, hm1, hp1, hcand, hrange1⟩ :=
          evalCands_ok ws w fuel ih i (candIdxs i ws.length) st hInv hconds
        have hec2 : evalCands ws w fuel i ws.length (candIdxs i ws.length) st =
            some (valsP ws w i, st1) := hec
        obtain ⟨v, vs, hvv, hbb⟩ := bbP_general ws w i hfit
        rw [hvv] at hec2
        have hslice : ¬ (packed (slice ws i ws.length)).length ≤ w := by
          rw [slice_full]; exact hfit
        have heq := bestBreakF_succ_general ws w fuel i ws.length st st1 v vs
          hlk (by intro hc; exact hslice hc.2) hec2
        rw [← hbb] at heq
        refine ⟨⟨((i, ws.length), (bbP ws w i).1) :: st1.memo,
          (i, (bbP ws w i).2) :: st1.parent⟩, heq, ?_, ?_, ?_, ?_, ?_, ?_, ?_⟩
        · refine ⟨?_, ?_, ?_⟩
          · intro e he
            rcases List.mem_cons.1 he with h | h
            · rw [h]; exact ⟨rfl, rfl⟩
            · exact hInv1.memo_val _ h
          · intro e he
            rcases List.mem_cons.1 he with h | h
            · rw [h]
            · exact hInv1.parent_val _ h
          · intro e he
            rcases List.mem_cons.1 he with h | h
            · exact ⟨(bbP ws w i).2, by rw [h]; exact List.mem_cons_self _ _⟩
            · obtain ⟨b, hb⟩ := hInv1.memo_parent _ h
              exact ⟨b, List.mem_cons_of_mem _ hb⟩
        · exact fun e he => List.mem_cons_of_mem _ (hm1 e he)
        · exact fun e he => List.mem_cons_of_mem _ (hp1 e he)
        · exact List.mem_cons_self _ _
        · intro e he
          rcases List.mem_cons.1 he with h | h
          · right; rw [h]; exact ⟨Nat.le_refl _, hiN⟩
          · rcases hrange1 e h with h2 | h2
            · exact Or.inl h2
            · right; omega
        · intro _ _ k hk1 hk2
          have hkc : k - 1 ∈ candIdxs i ws.length :=
            (candIdxs_mem _ _ _).2 (by omega)
          have := hcand (k - 1) hkc
          rw [show k - 1 + 1 = k by omega] at this
          exact List.mem_cons_of_mem _ this
        · exact List.mem_cons_self _ _

/-! ### The pure rendering chain -/

theorem bbC_eq_length_of_ge (ws : List Word) (w : Nat) (a : Nat)
    (h : ws.length ≤ a) : (bbP ws w a).2 = ws.length := by
  rw [bbP_fits ws w a (fits_of_ge ws w a h)]

theorem lt_length_of_bbC_ne (ws : List Word) (w : Nat) (a : Nat)
    (h : (bbP ws w a).2 ≠ ws.length) : a < ws.length := by
  by_contra hc
  exact h (bbC_eq_length_of_ge ws w a (by omega))

/-- The chain of line segments `(a, parent[a])` that the rendering
pass walks, expressed over the pure break choices. -/
def segsP (ws : List Word) (w : Nat) (a : Nat) : List (Nat × Nat) :=
  if (bbP ws w a).2 = ws.length then [(a, ws.length)]
  else (a, (bbP ws w a).2) :: segsP ws w (bbP ws w a).2
termination_by ws.length - a
decreasing_by
  have ha : a < ws.length := lt_length_of_bbC_ne ws w a (by assumption)
  have := bbC_bounds ws w a ha
  omega

/-- The pure rendering of the chain from `a`: all segments expanded
except the final one, which is packed. -/
def linesP (sh : List Char → List Nat → List Nat)
    (ws : List Word) (w : Nat) (a : Nat) : Option (List Word) :=
  if (bbP ws w a).2 = ws.length then some [packed (slice ws a ws.length)]
  else
    match expandedF sh (slice ws a (bbP ws w a).2) w with
    | none => none
    | some line =>
      match linesP sh ws w (bbP ws w a).2 with
      | none => none
      | some rest => some (line :: rest)
termination_by ws.length - a
decreasing_by
  have ha : a < ws.length := lt_length_of_bbC_ne ws w a (by assumption)
  have := bbC_bounds ws w a ha
  omega

/-- The rendering walk agrees with the pure rendering whenever the
parent table holds pure break choices and has an entry for every
possible interior start index. -/
theorem wrappedF_eq (sh : List Char → List Nat → List Nat)
    (ws : List Word) (w : Nat) (parent : List (Nat × Nat))
    (hpar : ∀ e ∈ parent, e.2 = (bbP ws w e.1).2)
    (hkeys : ∀ k, k < ws.length → ∃ b2, (k, b2) ∈ parent) :
    ∀ fuel a, ws.length - a < fuel →
      wrappedF sh ws w parent fuel a ((bbP ws w a).2) = linesP sh ws w a := by
  intro fuel
  induction fuel with
  | zero => intro a h; omega
  | succ fuel ih =>
    intro a hfa
    rw [wrappedF, linesP]
    by_cases hN : (bbP ws w a).2 = ws.length
    · rw [if_pos hN, if_pos hN, hN]
    · rw [if_neg hN, if_neg hN]
      have ha : a < ws.length := lt_length_of_bbC_ne ws w a hN
      have hb := bbC_bounds ws w a ha
      have hlt : (bbP ws w a).2 < ws.length := by omega
      cases hex : expandedF sh (slice ws a (bbP ws w a).2) w with
      | none => rfl
      | some line =>
        obtain ⟨b2, hb2⟩ := hkeys (bbP ws w a).2 hlt
        rw [lookupP_eq parent (fun k => (bbP ws w k).2) hpar _ b2 hb2]
        dsimp only
        rw [ih ((bbP ws w a).2) (by omega)]

/-- `kpLines` agrees with the pure rendering of the pure break
chain.  This is the combined refinement of planner and renderer. -/
theorem kpLines_ok (sh : List Char → List Nat → List Nat)
    (text : List Char) (w : Nat) :
    kpLines sh text w = linesP sh (pySplit text) w 0 := by
  obtain ⟨st', hrun, hInv', _, _, hsel, _, hall, _⟩ :=
    bestBreakF_ok (pySplit text) w ((pySplit text).length + 2) 0 ⟨[], []⟩
      (Inv_empty _ _) (by omega) (by omega)
  rw [kpLines, hrun]
  dsimp only
  have hlk0 : lookupP 0 st'.parent = some ((bbP (pySplit text) w 0).2) :=
    lookupP_eq st'.parent (fun k => (bbP (pySplit text) w k).2)
      hInv'.parent_val 0 _ hsel
  rw [hlk0]
  dsimp only
  by_cases hf : (packed ((pySplit text).drop 0)).length ≤ w
  · -- the whole document fits: the chain is a single final segment
    have hbb0 := bbP_fits (pySplit text) w 0 hf
    have hN : (bbP (pySplit text) w 0).2 = (pySplit text).length := by
      rw [hbb0]
    rw [linesP, if_pos hN, hN]
    obtain ⟨f, hfuel⟩ : ∃ f, (pySplit text).length + 2 = f + 1 :=
      ⟨(pySplit text).length + 1, rfl⟩
    rw [hfuel, wrappedF, if_pos rfl]
  · -- general case: every interior index has a parent entry
    have hkeys : ∀ k, k < (pySplit text).length → ∃ b2, (k, b2) ∈ st'.parent := by
      intro k hk
      cases Nat.eq_zero_or_pos k with
      | inl h0 =>
        rw [h0]
        exact ⟨_, hsel⟩
      | inr hpos =>
        exact ⟨_, hall rfl hf k hpos (by omega)⟩
    exact wrappedF_eq sh (pySplit text) w st'.parent hInv'.parent_val hkeys
      ((pySplit text).length + 2) 0 (by omega)

/-! ### The space-distribution loop -/

/-- Nat-level model of one pass: add 1 to the first `t` gaps (all of
them if `t` exceeds the gap count). -/
def addOnes : Nat → List Nat → List Nat
  | _, [] => []
  | 0, g :: gs => g :: gs
  | t + 1, g :: gs => (g + 1) :: addOnes t gs

theorem onePass_nat (t : Nat) (gs : List Nat) :
    onePass (t : Int) gs =
      (((t - min t gs.length : Nat) : Int), addOnes t gs) := by
  induction gs generalizing t with
  | nil =>
    rw [onePass, addOnes]
    simp
  | cons g gs ih =>
    rw [onePass]
    cases t with
    | zero =>
      rw [if_pos (by simp)]
      rw [addOnes]
      simp
    | succ t =>
      rw [if_neg (by omega)]
      have hc : ((t + 1 : Nat) : Int) - 1 = (t : Int) := by push_cast; ring
      rw [hc, ih t, addOnes]
      simp only [Prod.mk.injEq, List.length_cons]
      refine ⟨?_, trivial⟩
      exact Nat.cast_inj.2 (by omega)

theorem addOnes_length (t : Nat) (gs : List Nat) :
    (addOnes t gs).length = gs.length := by
  induction gs generalizing t with
  | nil => rw [addOnes]
  | cons g gs ih =>
    cases t with
    | zero => rw [addOnes]
    | succ t => rw [addOnes]; simp [ih]

theorem addOnes_sum (t : Nat) (gs : List Nat) :
    (addOnes t gs).sum = gs.sum + min t gs.length := by
  induction gs generalizing t with
  | nil => rw [addOnes]; simp
  | cons g gs ih =>
    cases t with
    | zero => rw [addOnes]; simp
    | succ t =>
      rw [addOnes]
      simp only [List.sum_cons, ih, List.length_cons]
      omega

theorem addOnes_mono (t : Nat) (gs : List Nat) (m : Nat)
    (h : ∀ g ∈ gs, m ≤ g) : ∀ g ∈ addOnes t gs, m ≤ g := by
  induction gs generalizing t with
  | nil => rw [addOnes]; intro g hg; simp at hg
  | cons g gs ih =>
    cases t with
    | zero => rw [addOnes]; exact h
    | succ t =>
      rw [addOnes]
      intro x hx
      rcases List.mem_cons.1 hx with h2 | h2
      · have := h g (List.mem_cons_self _ _)
        omega
      · exact ih t (fun y hy => h y (List.mem_cons_of_mem _ hy)) x h2

theorem addOnes_full (t : Nat) (gs : List Nat) (h : gs.length ≤ t) :
    addOnes t gs = gs.map (fun g => g + 1) := by
  induction gs generalizing t with
  | nil => rw [addOnes]; rfl
  | cons g gs ih =>
    cases t with
    | zero => simp at h
    | succ t =>
      rw [addOnes, List.map_cons]
      congr 1
      exact ih t (by simpa using h)

/-- The distribution loop terminates on nonnegative slack and a
nonempty gap list, adding exactly the slack into the gaps while
preserving count and any pointwise lower bound. -/
theorem distLoopN_ok : ∀ fuel (t : Nat) (gs : List Nat), gs ≠ [] →
    t < fuel →
    ∃ gs', distLoop fuel (t : Int) gs = some gs' ∧
      gs'.length = gs.length ∧ gs'.sum = gs.sum + t ∧
      (∀ m : Nat, (∀ g ∈ gs, m ≤ g) → ∀ g ∈ gs', m ≤ g) := by
  intro fuel
  induction fuel with
  | zero => intro t gs _ h; omega
  | succ fuel ih =>
    intro t gs hne hf
    have hk : 1 ≤ gs.length := by
      cases gs with
      | nil => exact absurd rfl hne
      | cons a l => simp
    cases t with
    | zero =>
      refine ⟨gs, ?_, rfl, by omega, fun m hm => hm⟩
      rw [distLoop, if_pos (by simp)]
    | succ t =>
      rw [distLoop, if_neg (by omega), onePass_nat]
      dsimp only
      have hne1 : addOnes (t + 1) gs ≠ [] := by
        intro hc
        have := congrArg List.length hc
        rw [addOnes_length] at this
        simp only [List.length_nil] at this
        omega
      have hmin : 1 ≤ min (t + 1) gs.length := le_min (by omega) hk
      have hub : min (t + 1) gs.length ≤ t + 1 := Nat.min_le_left _ _
      obtain ⟨gs', hgs', hl, hsum, hmono⟩ :=
        ih (t + 1 - min (t + 1) gs.length) (addOnes (t + 1) gs) hne1 (by omega)
      refine ⟨gs', hgs', by rw [hl, addOnes_length], ?_, ?_⟩
      · rw [hsum, addOnes_sum]
        omega
      · intro m hm
        exact hmono m (addOnes_mono (t + 1) gs m hm)

/-- With slack at least the gap count, every final gap is at least
one. -/
theorem distLoopN_ge_one (fuel : Nat) (t : Nat) (gs : List Nat)
    (hne : gs ≠ []) (hkt : gs.length ≤ t) (hf : t < fuel) :
    ∃ gs', distLoop fuel (t : Int) gs = some gs' ∧
      gs'.length = gs.length ∧ gs'.sum = gs.sum + t ∧
      ∀ g ∈ gs', 1 ≤ g := by
  have hk : 1 ≤ gs.length := by
    cases gs with
    | nil => exact absurd rfl hne
    | cons a l => simp
  obtain ⟨f, hf1⟩ : ∃ f, fuel = f + 1 := by
    cases fuel with
    | zero => omega
    | succ f => exact ⟨f, rfl⟩
  subst hf1
  have ht0 : ¬ ((t : Int) = 0) := by omega
  rw [distLoop, if_neg ht0, onePass_nat]
  dsimp only
  rw [addOnes_full t gs hkt]
  have hmin : min t gs.length = gs.length := min_eq_right hkt
  have hne1 : gs.map (fun g => g + 1) ≠ [] := by
    intro hc
    have := congrArg List.length hc
    simp only [List.length_map, List.length_nil] at this
    omega
  obtain ⟨gs', hgs', hl, hsum, hmono⟩ :=
    distLoopN_ok f (t - min t gs.length) (gs.map (fun g => g + 1)) hne1
      (by rw [hmin]; omega)
  refine ⟨gs', hgs', by rw [hl]; simp, ?_, ?_⟩
  · rw [hsum]
    have hms : (gs.map (fun g => g + 1)).sum = gs.sum + gs.length := by
      clear hsum hmono hgs' hl hne1 hne hkt hk hmin ht0
      induction gs with
      | nil => simp
      | cons a l ihl => simp [ihl]; omega
    rw [hms, hmin]
    omega
  · intro g hg
    refine hmono 1 ?_ g hg
    intro y hy
    obtain ⟨x, _, hx⟩ := List.mem_map.1 hy
    omega

/-! ### `expandedF` lemmas -/

theorem flatten_length (ws : List Word) : ws.flatten.length = totalLen ws :=
  List.length_flatten ws

theorem expandedF_single (sh : List Char → List Nat → List Nat)
    (v : Word) (w : Nat) : expandedF sh [v] w = some v := rfl

/-- For a line of at least two words whose packed form fits, the
gap computation succeeds with `len(words) - 1` gaps, each at least
1, summing to the slack `width - total word length`. -/
theorem gapsFor_ok (ws : List Word) (w : Nat)
    (h2 : 2 ≤ ws.length) (hfit : (packed ws).length ≤ w) :
    ∃ gs, gapsFor ws w = some gs ∧ gs.length = ws.length - 1 ∧
      (∀ g ∈ gs, 1 ≤ g) ∧ gs.sum = w - totalLen ws ∧ totalLen ws ≤ w := by
  have hne : ws ≠ [] := by
    intro hc; rw [hc] at h2; simp at h2
  have hp := packed_length ws hne
  have htw : totalLen ws ≤ w := by omega
  have hsl : (w : Int) - (ws.flatten.length : Int) = ((w - totalLen ws : Nat) : Int) := by
    rw [flatten_length]; omega
  have htoNat : ((w : Int) - (ws.flatten.length : Int)).toNat = w - totalLen ws := by
    rw [flatten_length]; omega
  obtain ⟨gs, hgs, hl, hsum, hge⟩ := distLoopN_ge_one
    ((w - totalLen ws) + 1) (w - totalLen ws)
    (List.replicate (ws.length - 1) 0)
    (by
      intro hc
      have := congrArg List.length hc
      simp at this
      omega)
    (by simp; omega)
    (by omega)
  refine ⟨gs, ?_, by rw [hl]; simp, hge, by rw [hsum]; simp, htw⟩
  rw [gapsFor]
  rw [htoNat, hsl]
  exact hgs

/-- For a line of at least two words whose packed form fits,
`expanded` succeeds and returns the glued render of the shuffled
gaps (with the appended zero gap for the final word). -/
theorem expandedF_ok (sh : List Char → List Nat → List Nat)
    (ws : List Word) (w : Nat)
    (h2 : 2 ≤ ws.length) (hfit : (packed ws).length ≤ w) :
    ∃ gs, gapsFor ws w = some gs ∧ gs.length = ws.length - 1 ∧
      (∀ g ∈ gs, 1 ≤ g) ∧ gs.sum = w - totalLen ws ∧ totalLen ws ≤ w ∧
      expandedF sh ws w = some (glue ws (sh ws.flatten gs ++ [0])) := by
  obtain ⟨gs, hgs, hl, hge, hsum, htw⟩ := gapsFor_ok ws w h2 hfit
  refine ⟨gs, hgs, hl, hge, hsum, htw, ?_⟩
  rw [expandedF, if_neg (by omega), hgs]

/-- The rendered expanded line has length exactly `width`, provided
the shuffle permutes. -/
theorem expandedF_length (sh : List Char → List Nat → List Nat)
    (hperm : ∀ s l, (sh s l).Perm l)
    (ws : List Word) (w : Nat)
    (h2 : 2 ≤ ws.length) (hfit : (packed ws).length ≤ w) :
    ∃ line, expandedF sh ws w = some line ∧ line.length = w := by
  obtain ⟨gs, _, hl, _, hsum, htw, hex⟩ := expandedF_ok sh ws w h2 hfit
  refine ⟨_, hex, ?_⟩
  have hperm1 := hperm ws.flatten gs
  have hlen : (sh ws.flatten gs ++ [0]).length = ws.length := by
    rw [List.length_append, hperm1.length_eq, hl]
    simp
    omega
  rw [glue_length ws _ hlen, List.sum_append, hperm1.sum_eq, hsum]
  simp
  omega

/-! ### Tokenization lemmas -/

theorem pySplit_nil : pySplit [] = [] := rfl

theorem pySplit_cons_space (c : Char) (cs : List Char)
    (h : isPySpace c = true) : pySplit (c :: cs) = pySplit cs := by
  show pySplitF (cs.length + 1) (c :: cs) = pySplitF cs.length cs
  rw [pySplitF, if_pos h]

theorem pySplit_cons_word (c : Char) (cs : List Char)
    (h : isPySpace c = false) :
    pySplit (c :: cs) =
      (c :: cs.takeWhile (fun d => !isPySpace d)) ::
        pySplit (cs.dropWhile (fun d => !isPySpace d)) := by
  show pySplitF (cs.length + 1) (c :: cs) = _
  rw [pySplitF, if_neg (by rw [h]; exact Bool.false_ne_true)]
  congr 1
  exact pySplitF_fuel cs.length _ _
    (dropWhile_length_le _ cs) (Nat.le_refl _)

/-- An all-whitespace prefix is skipped. -/
theorem pySplit_space_prefix (sep b : List Char)
    (hsp : ∀ c ∈ sep, isPySpace c = true) :
    pySplit (sep ++ b) = pySplit b := by
  induction sep with
  | nil => rfl
  | cons c cs ih =>
    rw [List.cons_append,
      pySplit_cons_space c _ (hsp c (List.mem_cons_self _ _))]
    exact ih (fun d hd => hsp d (List.mem_cons_of_mem _ hd))

theorem takeWhile_append_all {α : Type} (p : α → Bool) (l1 l2 : List α)
    (h : ∀ x ∈ l1, p x = true) :
    (l1 ++ l2).takeWhile p = l1 ++ l2.takeWhile p := by
  induction l1 with
  | nil => simp
  | cons a l ih =>
    rw [List.cons_append, List.takeWhile_cons,
      if_pos (h a (List.mem_cons_self _ _))]
    rw [ih (fun x hx => h x (List.mem_cons_of_mem _ hx))]
    rfl

theorem dropWhile_append_all {α : Type} (p : α → Bool) (l1 l2 : List α)
    (h : ∀ x ∈ l1, p x = true) :
    (l1 ++ l2).dropWhile p = l2.dropWhile p := by
  induction l1 with
  | nil => simp
  | cons a l ih =>
    rw [List.cons_append, List.dropWhile_cons,
      if_pos (h a (List.mem_cons_self _ _))]
    exact ih (fun x hx => h x (List.mem_cons_of_mem _ hx))

theorem takeWhile_append_not {α : Type} (p : α → Bool) (l1 l2 : List α)
    (h : ¬ ∀ x ∈ l1, p x = true) :
    (l1 ++ l2).takeWhile p = l1.takeWhile p := by
  induction l1 with
  | nil => exact absurd (by intro x hx; simp at hx) h
  | cons a l ih =>
    rw [List.cons_append, List.takeWhile_cons, List.takeWhile_cons]
    by_cases ha : p a = true
    · rw [if_pos ha, if_pos ha]
      have : ¬ ∀ x ∈ l, p x = true := by
        intro hc
        apply h
        intro x hx
        rcases List.mem_cons.1 hx with h2 | h2
        · rw [h2]; exact ha
        · exact hc x h2
      rw [ih this]
    · rw [if_neg ha, if_neg ha]

theorem dropWhile_append_not {α : Type} (p : α → Bool) (l1 l2 : List α)
    (h : ¬ ∀ x ∈ l1, p x = true) :
    (l1 ++ l2).dropWhile p = l1.dropWhile p ++ l2 := by
  induction l1 with
  | nil => exact absurd (by intro x hx; simp at hx) h
  | cons a l ih =>
    rw [List.cons_append, List.dropWhile_cons, List.dropWhile_cons]
    by_cases ha : p a = true
    · rw [if_pos ha, if_pos ha]
      have : ¬ ∀ x ∈ l, p x = true := by
        intro hc
        apply h
        intro x hx
        rcases List.mem_cons.1 hx with h2 | h2
        · rw [h2]; exact ha
        · exact hc x h2
      exact ih this
    · rw [if_neg ha, if_neg ha, List.cons_append]

/-- KEY tokenization fact: a nonempty all-whitespace separator splits
the tokenization of a concatenation. -/
theorem pySplit_append_sep_aux : ∀ (n : Nat) (a sep b : List Char),
    a.length ≤ n →
    (∀ c ∈ sep, isPySpace c = true) → sep ≠ [] →
    pySplit (a ++ (sep ++ b)) = pySplit a ++ pySplit b := by
  intro n
  induction n with
  | zero =>
    intro a sep b hlen hsp _
    have ha : a = [] := by
      cases a with
      | nil => rfl
      | cons x l => simp at hlen
    rw [ha, List.nil_append, pySplit_nil, List.nil_append]
    exact pySplit_space_prefix sep b hsp
  | succ n ih =>
    intro a sep b hlen hsp hne
    cases a with
    | nil =>
      rw [List.nil_append, pySplit_nil, List.nil_append]
      exact pySplit_space_prefix sep b hsp
    | cons c cs =>
      by_cases hc : isPySpace c = true
      · rw [List.cons_append, pySplit_cons_space c _ hc,
          pySplit_cons_space c _ hc]
        exact ih cs sep b (by simp at hlen; omega) hsp hne
      · have hcf : isPySpace c = false := by
          cases h2 : isPySpace c
          · rfl
          · exact absurd h2 hc
        rw [List.cons_append, pySplit_cons_word c _ hcf,
          pySplit_cons_word c _ hcf]
        obtain ⟨s0, sep', hsep⟩ : ∃ s0 sep', sep = s0 :: sep' := by
          cases sep with
          | nil => exact absurd rfl hne
          | cons s0 sep' => exact ⟨s0, sep', rfl⟩
        by_cases hall : ∀ x ∈ cs, (fun d => !isPySpace d) x = true
        · -- the word continues to the end of `cs`, then `sep` stops it
          have ht : (cs ++ (sep ++ b)).takeWhile (fun d => !isPySpace d) =
              cs ++ (sep ++ b).takeWhile (fun d => !isPySpace d) :=
            takeWhile_append_all _ cs (sep ++ b) hall
          have hs0 : isPySpace s0 = true :=
            hsp s0 (by rw [hsep]; exact List.mem_cons_self _ _)
          have ht2 : (sep ++ b).takeWhile (fun d => !isPySpace d) = [] := by
            rw [hsep, List.cons_append, List.takeWhile_cons,
              if_neg (by simp [hs0])]
          have hd : (cs ++ (sep ++ b)).dropWhile (fun d => !isPySpace d) =
              (sep ++ b).dropWhile (fun d => !isPySpace d) :=
            dropWhile_append_all _ cs (sep ++ b) hall
          have hd2 : (sep ++ b).dropWhile (fun d => !isPySpace d) = sep ++ b := by
            rw [hsep, List.cons_append, List.dropWhile_cons,
              if_neg (by simp [hs0])]
          have htcs : cs.takeWhile (fun d => !isPySpace d) = cs :=
            List.takeWhile_eq_self_iff.2 hall
          have hdcs : cs.dropWhile (fun d => !isPySpace d) = [] :=
            List.dropWhile_eq_nil_iff.2 hall
          rw [ht, ht2, hd, hd2, htcs, hdcs, pySplit_nil,
            pySplit_space_prefix sep b hsp, List.append_nil]
          rfl
        · -- the word ends inside `cs`
          have ht := takeWhile_append_not (fun d => !isPySpace d) cs (sep ++ b) hall
          have hd := dropWhile_append_not (fun d => !isPySpace d) cs (sep ++ b) hall
          rw [ht, hd]
          have hlen2 : (cs.dropWhile (fun d => !isPySpace d)).length ≤ n := by
            have := dropWhile_length_le (fun d => !isPySpace d) cs
            simp at hlen
            omega
          rw [ih (cs.dropWhile (fun d => !isPySpace d)) sep b hlen2 hsp hne]
          rfl

theorem pySplit_append_sep (a sep b : List Char)
    (hsp : ∀ c ∈ sep, isPySpace c = true) (hne : sep ≠ []) :
    pySplit (a ++ (sep ++ b)) = pySplit a ++ pySplit b :=
  pySplit_append_sep_aux a.length a sep b (Nat.le_refl _) hsp hne

/-- Every token of `pySplit` is nonempty and whitespace-free. -/
theorem pySplit_words : ∀ (n : Nat) (s : List Char), s.length ≤ n →
    ∀ v ∈ pySplit s, v ≠ [] ∧ ∀ c ∈ v, isPySpace c = false := by
  intro n
  induction n with
  | zero =>
    intro s hlen v hv
    have hs : s = [] := by
      cases s with
      | nil => rfl
      | cons x l => simp at hlen
    rw [hs, pySplit_nil] at hv
    simp at hv
  | succ n ih =>
    intro s hlen v hv
    cases s with
    | nil => rw [pySplit_nil] at hv; simp at hv
    | cons c cs =>
      by_cases hc : isPySpace c = true
      · rw [pySplit_cons_space c _ hc] at hv
        exact ih cs (by simp at hlen; omega) v hv
      · have hcf : isPySpace c = false := by
          cases h2 : isPySpace c
          · rfl
          · exact absurd h2 hc
        rw [pySplit_cons_word c _ hcf] at hv
        rcases List.mem_cons.1 hv with h | h
        · refine ⟨by rw [h]; simp, ?_⟩
          intro x hx
          rw [h] at hx
          rcases List.mem_cons.1 hx with h2 | h2
          · rw [h2]; exact hcf
          · have := List.mem_takeWhile_imp h2
            simp only [Bool.not_eq_true'] at this
            exact this
        · have hlen2 : (cs.dropWhile (fun d => !isPySpace d)).length ≤ n := by
            have := dropWhile_length_le (fun d => !isPySpace d) cs
            simp at hlen
            omega
          exact ih _ hlen2 v h

/-- A single nonempty whitespace-free word tokenizes to itself. -/
theorem pySplit_word (v : List Char) (hne : v ≠ [])
    (hw : ∀ c ∈ v, isPySpace c = false) : pySplit v = [v] := by
  cases v with
  | nil => exact absurd rfl hne
  | cons c cs =>
    rw [pySplit_cons_word c _ (hw c (List.mem_cons_self _ _))]
    have hall : ∀ x ∈ cs, (fun d => !isPySpace d) x = true := by
      intro x hx
      simp only [Bool.not_eq_true']
      exact hw x (List.mem_cons_of_mem _ hx)
    rw [List.takeWhile_eq_self_iff.2 hall, List.dropWhile_eq_nil_iff.2 hall,
      pySplit_nil]

/-! ### Round trips: splitting rendered lines recovers the words -/

/-- Words as produced by `pySplit`: nonempty, whitespace-free. -/
def goodWords (ws : List Word) : Prop :=
  ∀ v ∈ ws, v ≠ [] ∧ ∀ c ∈ v, isPySpace c = false

theorem goodWords_pySplit (s : List Char) : goodWords (pySplit s) :=
  fun v hv => pySplit_words s.length s (Nat.le_refl _) v hv

theorem goodWords_sub (ws ws2 : List Word) (h : goodWords ws)
    (hsub : ∀ v ∈ ws2, v ∈ ws) : goodWords ws2 :=
  fun v hv => h v (hsub v hv)

theorem goodWords_drop (ws : List Word) (h : goodWords ws) (a : Nat) :
    goodWords (ws.drop a) :=
  goodWords_sub ws _ h (fun _ hv => List.mem_of_mem_drop hv)

theorem goodWords_slice (ws : List Word) (h : goodWords ws) (a b : Nat) :
    goodWords (slice ws a b) :=
  goodWords_sub ws _ h
    (fun _ hv => List.mem_of_mem_drop (List.mem_of_mem_take hv))

theorem replicate_space (g : Nat) :
    ∀ c ∈ List.replicate g ' ', isPySpace c = true := by
  intro c hc
  rw [List.eq_of_mem_replicate hc]
  rfl

/-- Splitting a packed line recovers its words. -/
theorem pySplit_packed (ws : List Word) (hg : goodWords ws) :
    pySplit (packed ws) = ws := by
  induction ws with
  | nil => rw [packed_nil, pySplit_nil]
  | cons v ws ih =>
    cases ws with
    | nil =>
      rw [packed_single]
      obtain ⟨hne, hw⟩ := hg v (List.mem_cons_self _ _)
      exact pySplit_word v hne hw
    | cons u ws2 =>
      rw [packed_cons₂]
      have : v ++ ' ' :: packed (u :: ws2) = v ++ ([' '] ++ packed (u :: ws2)) := rfl
      rw [this, pySplit_append_sep v [' '] _
        (by intro c hc; simp at hc; rw [hc]; rfl) (by simp)]
      obtain ⟨hne, hw⟩ := hg v (List.mem_cons_self _ _)
      rw [pySplit_word v hne hw,
        ih (goodWords_sub _ _ hg (fun x hx => List.mem_cons_of_mem _ hx))]
      rfl

/-- Splitting an expanded line (words glued with positive interior
gaps, zero final gap) recovers its words. -/
theorem pySplit_glue : ∀ (ws : List Word) (gs : List Nat),
    goodWords ws → gs.length = ws.length - 1 → (∀ g ∈ gs, 1 ≤ g) →
    pySplit (glue ws (gs ++ [0])) = ws := by
  intro ws
  induction ws with
  | nil =>
    intro gs _ _ _
    rw [glue_nil_left, pySplit_nil]
  | cons v ws ih =>
    intro gs hg hl hge
    cases ws with
    | nil =>
      have hgs : gs = [] := by
        cases gs with
        | nil => rfl
        | cons g gs2 => simp at hl
      rw [hgs]
      obtain ⟨hne, hw⟩ := hg v (List.mem_cons_self _ _)
      show pySplit (glue [v] (0 :: [])) = [v]
      rw [glue_cons, glue_nil_left]
      simp only [List.replicate_zero, List.append_nil]
      exact pySplit_word v hne hw
    | cons u ws2 =>
      cases gs with
      | nil => simp at hl
      | cons g gs2 =>
        rw [List.cons_append, glue_cons]
        have hassoc : v ++ List.replicate g ' ' ++ glue (u :: ws2) (gs2 ++ [0]) =
            v ++ (List.replicate g ' ' ++ glue (u :: ws2) (gs2 ++ [0])) :=
          List.append_assoc v _ _
        rw [hassoc, pySplit_append_sep v _ _ (replicate_space g)
          (by
            intro hc
            have := congrArg List.length hc
            simp at this
            have := hge g (List.mem_cons_self _ _)
            omega)]
        obtain ⟨hne, hw⟩ := hg v (List.mem_cons_self _ _)
        rw [pySplit_word v hne hw,
          ih gs2 (goodWords_sub _ _ hg (fun x hx => List.mem_cons_of_mem _ hx))
            (by simp at hl ⊢; omega)
            (fun x hx => hge x (List.mem_cons_of_mem _ hx))]
        rfl

theorem joinNl_nil : joinNl [] = [] := rfl

theorem joinNl_single (l : Word) : joinNl [l] = l := by
  simp [joinNl, List.intercalate]

theorem joinNl_cons₂ (l l2 : Word) (rest : List Word) :
    joinNl (l :: l2 :: rest) = l ++ ('\n' :: joinNl (l2 :: rest)) := by
  simp [joinNl, List.intercalate, List.intersperse]

/-- Splitting a newline-joined text gives the concatenation of the
lines' tokenizations. -/
theorem pySplit_joinNl (lines : List Word) :
    pySplit (joinNl lines) = (lines.map pySplit).flatten := by
  induction lines with
  | nil => rw [joinNl_nil, pySplit_nil]; rfl
  | cons l rest ih =>
    cases rest with
    | nil =>
      rw [joinNl_single]
      simp
    | cons l2 rest2 =>
      rw [joinNl_cons₂]
      have : l ++ ('\n' :: joinNl (l2 :: rest2)) =
          l ++ (['\n'] ++ joinNl (l2 :: rest2)) := rfl
      rw [this, pySplit_append_sep l ['\n'] _
        (by intro c hc; simp at hc; rw [hc]; rfl) (by simp), ih]
      rfl

/-! ### Properties of the rendered lines -/

theorem linesP_last (sh : List Char → List Nat → List Nat)
    (ws : List Word) (w : Nat) (a : Nat)
    (hN : (bbP ws w a).2 = ws.length) :
    linesP sh ws w a = some [packed (ws.drop a)] := by
  rw [linesP, if_pos hN, slice_full]

/-- Main rendering facts, proved along the break chain: rendering
succeeds; re-tokenizing the lines yields exactly the remaining
words; every non-final line of at least two words is exactly `width`
long; and the final line is the packed form of some terminal-fitting
suffix. -/
theorem linesP_main (sh : List Char → List Nat → List Nat)
    (hperm : ∀ s l, (sh s l).Perm l) (ws : List Word) (w : Nat)
    (hg : goodWords ws) :
    ∀ (k a : Nat), ws.length - a ≤ k →
    ∃ lines, linesP sh ws w a = some lines ∧
      lines ≠ [] ∧
      (lines.map pySplit).flatten = ws.drop a ∧
      (∀ l ∈ lines.dropLast, 2 ≤ (pySplit l).length → l.length = w) ∧
      (∃ c, a ≤ c ∧ (bbP ws w c).2 = ws.length ∧
        lines.getLast? = some (packed (ws.drop c))) := by
  intro k
  induction k with
  | zero =>
    intro a hk
    have hN : (bbP ws w a).2 = ws.length :=
      bbC_eq_length_of_ge ws w a (by omega)
    refine ⟨[packed (ws.drop a)], linesP_last sh ws w a hN, by simp, ?_, ?_, ?_⟩
    · simp [pySplit_packed _ (goodWords_drop ws hg a)]
    · simp
    · exact ⟨a, Nat.le_refl _, hN, rfl⟩
  | succ k ih =>
    intro a hk
    by_cases hN : (bbP ws w a).2 = ws.length
    · refine ⟨[packed (ws.drop a)], linesP_last sh ws w a hN, by simp, ?_, ?_, ?_⟩
      · simp [pySplit_packed _ (goodWords_drop ws hg a)]
      · simp
      · exact ⟨a, Nat.le_refl _, hN, rfl⟩
    · have ha : a < ws.length := lt_length_of_bbC_ne ws w a hN
      have hb := bbC_bounds ws w a ha
      have hblt : (bbP ws w a).2 < ws.length := by omega
      have hfits := (bbC_fits_of_lt ws w a hblt).2
      have hseglen : (slice ws a (bbP ws w a).2).length = (bbP ws w a).2 - a :=
        slice_length ws a _ (by omega) (by omega)
      have hgood : goodWords (slice ws a (bbP ws w a).2) :=
        goodWords_slice ws hg a _
      obtain ⟨rest, hrest, hrne, hrflat, hrwidth, c, hc1, hc2, hc3⟩ :=
        ih ((bbP ws w a).2) (by omega)
      rw [linesP, if_neg hN]
      have hdrop : slice ws a (bbP ws w a).2 ++ ws.drop (bbP ws w a).2 =
          ws.drop a := slice_append_drop ws a _ (by omega)
      by_cases hone : (slice ws a (bbP ws w a).2).length = 1
      · -- single-word line: rendered as the bare word
        obtain ⟨v, hv⟩ := List.length_eq_one.1 hone
        have hvg := hgood v (by rw [hv]; exact List.mem_cons_self _ _)
        have hsplitv : pySplit v = [v] := pySplit_word v hvg.1 hvg.2
        rw [hv, expandedF_single, hrest]
        refine ⟨v :: rest, rfl, by simp, ?_, ?_, ?_⟩
        · simp only [List.map_cons, List.flatten_cons, hsplitv, hrflat]
          rw [← hdrop, hv]
        · intro l hl
          cases rest with
          | nil => exact absurd rfl hrne
          | cons r rest2 =>
            rcases List.mem_cons.1 (by simpa using hl) with h | h
            · intro habs
              rw [h, hsplitv] at habs
              simp at habs
            · exact hrwidth l (by simpa using h)
        · refine ⟨c, by omega, hc2, ?_⟩
          cases rest with
          | nil => exact absurd rfl hrne
          | cons r rest2 => simpa using hc3
      · -- proper line of at least two words: expanded to exactly `w`
        have h2 : 2 ≤ (slice ws a (bbP ws w a).2).length := by
          have h1 : 1 ≤ (slice ws a (bbP ws w a).2).length := by omega
          omega
        obtain ⟨gs, hgs, hgl, hgge, hgsum, htw, hex⟩ :=
          expandedF_ok sh (slice ws a (bbP ws w a).2) w h2 hfits
        rw [hex, hrest]
        set seg := slice ws a (bbP ws w a).2 with hsegdef
        set line := glue seg (sh seg.flatten gs ++ [0]) with hlinedef
        have hpermg := hperm seg.flatten gs
        have hsplitline : pySplit line = seg := by
          rw [hlinedef]
          exact pySplit_glue seg (sh seg.flatten gs) hgood
            (by rw [hpermg.length_eq, hgl])
            (fun g hgm => hgge g (hpermg.mem_iff.1 hgm))
        have hlinelen : line.length = w := by
          rw [hlinedef, glue_length seg _
            (by
              rw [List.length_append, hpermg.length_eq, hgl]
              simp
              omega)]
          rw [List.sum_append, hpermg.sum_eq, hgsum]
          simp
          omega
        refine ⟨line :: rest, rfl, by simp, ?_, ?_, ?_⟩
        · simp only [List.map_cons, List.flatten_cons, hsplitline, hrflat]
          exact hdrop
        · intro l hl
          cases rest with
          | nil => exact absurd rfl hrne
          | cons r rest2 =>
            rcases List.mem_cons.1 (by simpa using hl) with h | h
            · intro _
              rw [h]
              exact hlinelen
            · exact hrwidth l (by simpa using h)
        · refine ⟨c, by omega, hc2, ?_⟩
          cases rest with
          | nil => exact absurd rfl hrne
          | cons r rest2 => simpa using hc3

/-! ### Chain and segment helpers -/

theorem segsP_mem (ws : List Word) (w : Nat) :
    ∀ (K a : Nat), ws.length - a ≤ K →
      ∀ p ∈ segsP ws w a, p.2 = (bbP ws w p.1).2 ∧ a ≤ p.1 := by
  intro K
  induction K with
  | zero =>
    intro a hK p hp
    have hN : (bbP ws w a).2 = ws.length :=
      bbC_eq_length_of_ge ws w a (by omega)
    rw [segsP, if_pos hN] at hp
    simp at hp
    rw [hp]
    exact ⟨by rw [hN], Nat.le_refl _⟩
  | succ K ih =>
    intro a hK p hp
    by_cases hN : (bbP ws w a).2 = ws.length
    · rw [segsP, if_pos hN] at hp
      simp at hp
      rw [hp]
      exact ⟨by rw [hN], Nat.le_refl _⟩
    · rw [segsP, if_neg hN] at hp
      have ha : a < ws.length := lt_length_of_bbC_ne ws w a hN
      have hb := bbC_bounds ws w a ha
      rcases List.mem_cons.1 hp with h | h
      · rw [h]
        exact ⟨rfl, Nat.le_refl _⟩
      · have := ih ((bbP ws w a).2) (by omega) p h
        exact ⟨this.1, by omega⟩

/-- The break-point chain from `a` reaches the document length in
finitely many strictly increasing lookup hops. -/
theorem chain_reaches (ws : List Word) (w : Nat)
    (parent : List (Nat × Nat))
    (hpar : ∀ e ∈ parent, e.2 = (bbP ws w e.1).2)
    (hkeys : ∀ k, k < ws.length → ∃ b2, (k, b2) ∈ parent) :
    ∀ (K a : Nat), ws.length - a ≤ K → a ≤ ws.length →
      ∃ hops : List Nat, hops.head? = some a ∧
        hops.getLast? = some ws.length ∧
        hops.Chain' (fun x y => lookupP x parent = some y) ∧
        hops.Chain' (fun x y => x < y) := by
  intro K
  induction K with
  | zero =>
    intro a hK haN
    have ha : a = ws.length := by omega
    exact ⟨[ws.length], by rw [ha]; rfl, rfl, List.chain'_singleton _,
      List.chain'_singleton _⟩
  | succ K ih =>
    intro a hK haN
    by_cases haeq : a = ws.length
    · exact ⟨[ws.length], by rw [haeq]; rfl, rfl, List.chain'_singleton _,
        List.chain'_singleton _⟩
    · have ha : a < ws.length := by omega
      have hb := bbC_bounds ws w a ha
      obtain ⟨b2, hb2⟩ := hkeys a ha
      have hlka : lookupP a parent = some ((bbP ws w a).2) :=
        lookupP_eq parent (fun k => (bbP ws w k).2) hpar a b2 hb2
      obtain ⟨hops, hh, hl, hc1, hc2⟩ :=
        ih ((bbP ws w a).2) (by omega) (by omega)
      cases hops with
      | nil => simp at hh
      | cons x rest =>
        have hx : x = (bbP ws w a).2 := by
          have : some x = some ((bbP ws w a).2) := by
            rw [← hh]; rfl
          exact Option.some.inj this
        refine ⟨a :: x :: rest, rfl, by simpa using hl, ?_, ?_⟩
        · rw [List.chain'_cons]
          exact ⟨by rw [hx]; exact hlka, hc1⟩
        · rw [List.chain'_cons]
          exact ⟨by rw [hx]; omega, hc2⟩

/-- With a nonzero slack and no gaps, the distribution loop never
terminates: the model returns `none` for every fuel. -/
theorem distLoop_no_gaps (s : Int) (hs : s ≠ 0) :
    ∀ fuel, distLoop fuel s [] = none := by
  intro fuel
  induction fuel with
  | zero => rw [distLoop, if_neg hs]
  | succ fuel ih =>
    rw [distLoop, if_neg hs]
    exact ih

/-- Expansion of a two-word line under any permutation shuffle: the
single interior gap is fixed by the shuffle. -/
theorem expandedF_pair (sh : List Char → List Nat → List Nat)
    (hperm : ∀ s l, (sh s l).Perm l) (v u : Word) (w : Nat)
    (gs : List Nat) (hg : gapsFor [v, u] w = some gs)
    (hlen : gs.length = 1) :
    expandedF sh [v, u] w = some (glue [v, u] (gs ++ [0])) := by
  obtain ⟨g, hgeq⟩ := List.length_eq_one.1 hlen
  have hsh : sh ([v, u] : List Word).flatten [g] = [g] :=
    List.perm_singleton.1 (hperm ([v, u] : List Word).flatten [g])
  rw [expandedF, if_neg (by simp), hg]
  dsimp only
  rw [hgeq, hsh]

/-! ### Claim interface -/

/-- The character list of a string literal. -/
def chars (s : String) : List Char := s.data

/-- The identity gap shuffle: a legitimate instance of the
permutation contract of `random.shuffle`. -/
def idShuffle : List Char → List Nat → List Nat := fun _ l => l

theorem idShuffle_perm : ∀ s l, (idShuffle s l).Perm l :=
  fun _ l => List.Perm.refl l

/-! ### Concrete evaluation of the planner on the spec's example -/

/-- The words of the spec's concrete example. -/
def demoWords : List Word :=
  [chars "The", chars "quick", chars "brown", chars "fox", chars "jumps"]

theorem demo_pySplit :
    pySplit (chars "The quick brown fox jumps") = demoWords := rfl

theorem demo_bbP5 : bbP demoWords 12 5 = (Cost.fin 0, 5) := by
  rw [bbP_eq, if_pos (by decide)]
  rfl

theorem demo_bbP4 : bbP demoWords 12 4 = (Cost.fin 0, 5) := by
  rw [bbP_eq, if_pos (by decide)]
  rfl

theorem demo_bbP3 : bbP demoWords 12 3 = (Cost.fin 0, 5) := by
  rw [bbP_eq, if_pos (by decide)]
  rfl

theorem demo_bbP2 : bbP demoWords 12 2 = (Cost.fin 27, 4) := by
  rw [bbP_eq, if_neg (by decide)]
  have hv : valsP demoWords 12 2 =
      [(Cost.inf, 5), (Cost.fin 27, 4), (Cost.fin 343, 3)] := by
    show (candIdxs 2 demoWords.length).map (cand demoWords 12 2) = _
    rw [show candIdxs 2 demoWords.length = [4, 3, 2] from rfl]
    simp only [List.map_cons, List.map_nil, cand, Nat.reduceAdd,
      demo_bbP5, demo_bbP4, demo_bbP3]
    decide
  rw [hv]
  rfl

theorem demo_bbP1 : bbP demoWords 12 1 = (Cost.fin 1, 3) := by
  rw [bbP_eq, if_neg (by decide)]
  have hv : valsP demoWords 12 1 =
      [(Cost.inf, 5), (Cost.inf, 4), (Cost.fin 1, 3), (Cost.fin 370, 2)] := by
    show (candIdxs 1 demoWords.length).map (cand demoWords 12 1) = _
    rw [show candIdxs 1 demoWords.length = [4, 3, 2, 1] from rfl]
    simp only [List.map_cons, List.map_nil, cand, Nat.reduceAdd,
      demo_bbP5, demo_bbP4, demo_bbP3, demo_bbP2]
    decide
  rw [hv]
  rfl

theorem demo_bbP0 : bbP demoWords 12 0 = (Cost.fin 54, 2) := by
  rw [bbP_eq, if_neg (by decide)]
  have hv : valsP demoWords 12 0 =
      [(Cost.inf, 5), (Cost.inf, 4), (Cost.inf, 3),
        (Cost.fin 54, 2), (Cost.fin 730, 1)] := by
    show (candIdxs 0 demoWords.length).map (cand demoWords 12 0) = _
    rw [show candIdxs 0 demoWords.length = [4, 3, 2, 1, 0] from rfl]
    simp only [List.map_cons, List.map_nil, cand, Nat.reduceAdd,
      demo_bbP5, demo_bbP4, demo_bbP3, demo_bbP2, demo_bbP1]
    decide
  rw [hv]
  rfl

theorem demo_segs : segsP demoWords 12 0 = [(0, 2), (2, 4), (4, 5)] := by
  rw [segsP, demo_bbP0, if_neg (by decide),
    show ((Cost.fin 54, (2 : Nat)).2) = 2 from rfl]
  rw [segsP, demo_bbP2, if_neg (by decide),
    show ((Cost.fin 27, (4 : Nat)).2) = 4 from rfl]
  rw [segsP, demo_bbP4, if_pos (by decide)]
  rfl

/-! ### The claims -/

/-- C2: for every input text and width, and any permutation gap
shuffle, `format` succeeds and splitting its output on whitespace
yields exactly the word sequence of splitting the input: no word is
split, dropped, duplicated or reordered. -/
theorem C2_word_preservation (sh : List Char → List Nat → List Nat)
    (hperm : ∀ s l, (sh s l).Perm l) (text : List Char) (w : Nat) :
    ∃ s, kpFormat sh text w = some s ∧ pySplit s = pySplit text := by
  obtain ⟨lines, hl, _, hflat, _, _⟩ :=
    linesP_main sh hperm (pySplit text) w (goodWords_pySplit text)
      ((pySplit text).length) 0 (by omega)
  refine ⟨joinNl lines, ?_, ?_⟩
  · rw [kpFormat, kpLines_ok, hl]
    rfl
  · rw [pySplit_joinNl, hflat, List.drop_zero]

theorem C2_witness :
    ∃ s, kpFormat idShuffle (chars "hello brave new world") 11 = some s ∧
      pySplit s = pySplit (chars "hello brave new world") :=
  C2_word_preservation idShuffle idShuffle_perm
    (chars "hello brave new world") 11

/-- C3: for a list of two or more words whose packed form fits the
width, `expanded` distributes exactly `width - total word length`
spaces over the `len(words) - 1` gaps and returns a string of
exactly `width` characters. -/
theorem C3_expanded_exact (sh : List Char → List Nat → List Nat)
    (hperm : ∀ s l, (sh s l).Perm l) (ws : List Word) (w : Nat)
    (h2 : 2 ≤ ws.length) (hfit : (packed ws).length ≤ w) :
    ∃ gs, gapsFor ws w = some gs ∧ gs.length = ws.length - 1 ∧
      gs.sum = w - totalLen ws ∧
      ∃ line, expandedF sh ws w = some line ∧ line.length = w := by
  obtain ⟨gs, hgs, hl, _, hsum, _, _⟩ := expandedF_ok sh ws w h2 hfit
  obtain ⟨line, hline, hlen⟩ := expandedF_length sh hperm ws w h2 hfit
  exact ⟨gs, hgs, hl, hsum, line, hline, hlen⟩

theorem C3_witness :
    2 ≤ ([chars "ab", chars "cd"] : List Word).length ∧
    (packed [chars "ab", chars "cd"]).length ≤ 6 ∧
    ∃ gs, gapsFor [chars "ab", chars "cd"] 6 = some gs ∧
      gs.length = ([chars "ab", chars "cd"] : List Word).length - 1 ∧
      gs.sum = 6 - totalLen [chars "ab", chars "cd"] ∧
      ∃ line, expandedF idShuffle [chars "ab", chars "cd"] 6 = some line ∧
        line.length = 6 :=
  ⟨by decide, by decide,
    C3_expanded_exact idShuffle idShuffle_perm [chars "ab", chars "cd"] 6
      (by decide) (by decide)⟩

/-- C4: FALSE as stated.  A non-final line consisting of a single
word is rendered as the bare word, not padded to the width: with
width 5 and text "aaa bbbbb ccccc" the first (justified, non-final)
line is "aaa" of length 3, not 5. -/
theorem C4_counterexample :
    kpLines idShuffle (chars "aaa bbbbb ccccc") 5 =
      some [chars "aaa", chars "bbbbb", chars "ccccc"] ∧
    (chars "aaa").length ≠ 5 := ⟨rfl, by decide⟩

/-- C4 (amended): every non-final output line that contains two or
more words has rendered length exactly `width`; a non-final line
consisting of a single word is rendered as the bare word and may be
shorter. -/
theorem C4_amended (sh : List Char → List Nat → List Nat)
    (hperm : ∀ s l, (sh s l).Perm l) (text : List Char) (w : Nat) :
    ∃ lines, kpLines sh text w = some lines ∧
      ∀ l ∈ lines.dropLast, 2 ≤ (pySplit l).length → l.length = w := by
  obtain ⟨lines, hl, _, _, hwidth, _⟩ :=
    linesP_main sh hperm (pySplit text) w (goodWords_pySplit text)
      ((pySplit text).length) 0 (by omega)
  exact ⟨lines, by rw [kpLines_ok]; exact hl, hwidth⟩

theorem C4_witness :
    ∃ lines, kpLines idShuffle (chars "one two three four") 9 = some lines ∧
      ∀ l ∈ lines.dropLast, 2 ≤ (pySplit l).length → l.length = 9 :=
  C4_amended idShuffle idShuffle_perm (chars "one two three four") 9

/-- C8: on a single word longer than the width, the Knuth-Plass
formatter terminates and renders the word as its own overflowing
line — but the greedy formatter does NOT terminate: it first emits an
empty line, and `expanded` then loops forever (`while space_left:`
with an empty gap list and positive slack never reaches 0).  The
model returns the word for the Knuth-Plass path, `none` for every
fuel in the distribution loop on no gaps, and `none` for the greedy
formatter. -/
theorem C8_oversized_word :
    (∀ sh : List Char → List Nat → List Nat,
      kpFormat sh (chars "toolongword") 5 = some (chars "toolongword")) ∧
    (∀ fuel, distLoop fuel 5 [] = none) ∧
    (∀ sh : List Char → List Nat → List Nat,
      greedyFormat sh (chars "toolongword") 5 = none) :=
  ⟨fun _ => rfl, fun fuel => distLoop_no_gaps 5 (by decide) fuel,
    fun _ => rfl⟩

/-- C9: the output of a `format` call depends only on the text and
the configured width, not on the `_memo`/`_parent`/`words` state
left by earlier calls on the same instance — `format` re-initializes
them; hence repeated calls with equal arguments give identical
results. -/
theorem C9_no_cross_call_state (sh : List Char → List Nat → List Nat)
    (text : List Char) (f1 f2 : Fmt) (hw : f1.width = f2.width) :
    (kpFormatInst sh f1 text).1 = (kpFormatInst sh f2 text).1 := by
  simp only [kpFormatInst, hw]

theorem C9_witness :
    (kpFormatInst idShuffle ⟨7, [], [], []⟩ (chars "a bb ccc")).1 =
      (kpFormatInst idShuffle
        ⟨7, [((0, 3), Cost.fin 8)], [(0, 2), (2, 2)], [chars "zz"]⟩
        (chars "a bb ccc")).1 :=
  C9_no_cross_call_state idShuffle (chars "a bb ccc")
    ⟨7, [], [], []⟩
    ⟨7, [((0, 3), Cost.fin 8)], [(0, 2), (2, 2)], [chars "zz"]⟩ rfl

/-- C1: FALSE as stated.  `format("The quick brown fox jumps", 12)`
does not produce two lines: "brown fox jumps" is 15 characters, which
exceeds the width 12, so the planner breaks it further.  The actual
output has three lines, the last being "jumps". -/
theorem C1_counterexample :
    kpFormat idShuffle (chars "The quick brown fox jumps") 12 =
      some (chars "The    quick\nbrown    fox\njumps") ∧
    (kpLines idShuffle (chars "The quick brown fox jumps") 12).map
      List.length = some 3 := ⟨rfl, rfl⟩

/-- C1 (amended): `format("The quick brown fox jumps", 12)` returns
three newline-separated lines: "The    quick" (12 characters, all
padding in the single gap), "brown    fox" (12 characters), and the
final unjustified line "jumps"; this holds for every permutation
shuffle since both justified lines have a single gap. -/
theorem C1_amended (sh : List Char → List Nat → List Nat)
    (hperm : ∀ s l, (sh s l).Perm l) :
    kpFormat sh (chars "The quick brown fox jumps") 12 =
      some (chars "The    quick\nbrown    fox\njumps") := by
  rw [kpFormat, kpLines_ok, demo_pySplit]
  rw [linesP, demo_bbP0]
  dsimp only
  rw [if_neg (by decide)]
  rw [show slice demoWords 0 2 = [chars "The", chars "quick"] from rfl]
  rw [expandedF_pair sh hperm (chars "The") (chars "quick") 12 [4] rfl rfl]
  dsimp only
  rw [linesP, demo_bbP2]
  dsimp only
  rw [if_neg (by decide)]
  rw [show slice demoWords 2 4 = [chars "brown", chars "fox"] from rfl]
  rw [expandedF_pair sh hperm (chars "brown") (chars "fox") 12 [4] rfl rfl]
  dsimp only
  rw [linesP, demo_bbP4]
  dsimp only
  rw [if_pos (by decide)]
  rfl

theorem C1_witness :
    kpFormat idShuffle (chars "The quick brown fox jumps") 12 =
      some (chars "The    quick\nbrown    fox\njumps") :=
  C1_amended idShuffle idShuffle_perm

/-- C5: in the candidate loop of `best_break(i, j)` (in the general
case, with `j` the document length), the break position recorded in
`self._parent[i]` attains the minimum total badness, and every
candidate whose total ties the minimum lies at or below it — i.e.
ties are broken in favour of the latest (largest) candidate
position, because the loop runs backwards and Python `min` keeps the
first minimum. -/
theorem C5_tie_prefers_later (ws : List Word) (w fuel i : Nat) (st : St)
    (hInv : Inv ws w st) (hfuel : ws.length - i < fuel)
    (hiN : i ≤ ws.length)
    (hgen : ¬ (packed (ws.drop i)).length ≤ w) :
    ∃ st', bestBreakF ws w fuel i ws.length st =
        some ((bbP ws w i).1, st') ∧
      lookupP i st'.parent = some ((bbP ws w i).2) ∧
      (∃ n ∈ candIdxs i ws.length, cand ws w i n = bbP ws w i) ∧
      (∀ n ∈ candIdxs i ws.length,
        (cand ws w i n).1 = (bbP ws w i).1 → n + 1 ≤ (bbP ws w i).2) := by
  obtain ⟨st', heq, hInv', _, _, hsel, _, _, _⟩ :=
    bestBreakF_ok ws w fuel i st hInv hfuel hiN
  obtain ⟨hat, hmax⟩ := bbC_tie_max ws w i hgen
  exact ⟨st', heq,
    lookupP_eq st'.parent (fun k => (bbP ws w k).2) hInv'.parent_val i _ hsel,
    hat, hmax⟩

/-- Witness for C5 at a genuine tie: with words "aaa","bbb" and
width 2 the two candidates both have infinite total badness, and the
recorded break is the later position. -/
theorem C5_witness :
    (¬ (packed (([chars "aaa", chars "bbb"] : List Word).drop 0)).length ≤ 2) ∧
    ∃ st', bestBreakF [chars "aaa", chars "bbb"] 2 4 0
        ([chars "aaa", chars "bbb"] : List Word).length ⟨[], []⟩ =
        some ((bbP [chars "aaa", chars "bbb"] 2 0).1, st') ∧
      lookupP 0 st'.parent = some ((bbP [chars "aaa", chars "bbb"] 2 0).2) ∧
      (∃ n ∈ candIdxs 0 ([chars "aaa", chars "bbb"] : List Word).length,
        cand [chars "aaa", chars "bbb"] 2 0 n =
          bbP [chars "aaa", chars "bbb"] 2 0) ∧
      (∀ n ∈ candIdxs 0 ([chars "aaa", chars "bbb"] : List Word).length,
        (cand [chars "aaa", chars "bbb"] 2 0 n).1 =
            (bbP [chars "aaa", chars "bbb"] 2 0).1 →
          n + 1 ≤ (bbP [chars "aaa", chars "bbb"] 2 0).2) :=
  ⟨by decide,
    C5_tie_prefers_later [chars "aaa", chars "bbb"] 2 4 0 ⟨[], []⟩
      (Inv_empty _ _) (by decide) (by decide) (by decide)⟩

/-- C6: when `best_break(i, j)` runs with `j` the document length
and the suffix fits the width, it records badness 0 in the memo at
`(i, j)` and break target `j` in the parent map for `i`, returning
0; and the final rendered line of `format` is the plain packed join
of its words, whose length is at most the width whenever that last
segment fits. -/
theorem C6_terminal_exemption
    (ws : List Word) (w fuel i : Nat) (st : St)
    (sh : List Char → List Nat → List Nat) (text : List Char) (w2 : Nat)
    (hperm : ∀ s l, (sh s l).Perm l)
    (hInv : Inv ws w st) (hfuel : ws.length - i < fuel)
    (hiN : i ≤ ws.length)
    (hfit : (packed (ws.drop i)).length ≤ w) :
    (∃ st', bestBreakF ws w fuel i ws.length st = some (Cost.fin 0, st') ∧
      lookupM (i, ws.length) st'.memo = some (Cost.fin 0) ∧
      lookupP i st'.parent = some ws.length) ∧
    (∃ lines c, kpLines sh text w2 = some lines ∧
      lines.getLast? = some (packed ((pySplit text).drop c)) ∧
      ((packed ((pySplit text).drop c)).length ≤ w2 →
        ∃ lastLine, lines.getLast? = some lastLine ∧
          lastLine.length ≤ w2)) := by
  constructor
  · obtain ⟨st', heq, hInv', _, _, hsel, _, _, hmemo⟩ :=
      bestBreakF_ok ws w fuel i st hInv hfuel hiN
    have hbbp := bbP_fits ws w i hfit
    refine ⟨st', ?_, ?_, ?_⟩
    · rw [hbbp] at heq
      exact heq
    · have h1 : lookupM (i, ws.length) st'.memo = some ((bbP ws w i).1) :=
        lookupM_eq st'.memo (fun k => (bbP ws w k.1).1)
          (fun e he => (hInv'.memo_val e he).2) (i, ws.length) _ hmemo
      rw [hbbp] at h1
      exact h1
    · have h1 : lookupP i st'.parent = some ((bbP ws w i).2) :=
        lookupP_eq st'.parent (fun k => (bbP ws w k).2)
          hInv'.parent_val i _ hsel
      rw [hbbp] at h1
      exact h1
  · obtain ⟨lines, hl, _, _, _, c, _, _, hc3⟩ :=
      linesP_main sh hperm (pySplit text) w2 (goodWords_pySplit text)
        ((pySplit text).length) 0 (by omega)
    refine ⟨lines, c, by rw [kpLines_ok]; exact hl, hc3, ?_⟩
    intro hfitlast
    exact ⟨packed ((pySplit text).drop c), hc3, hfitlast⟩

theorem C6_witness :
    (packed (([chars "fox", chars "jumps"] : List Word).drop 0)).length ≤ 12 ∧
    ((∃ st', bestBreakF [chars "fox", chars "jumps"] 12 4 0
        ([chars "fox", chars "jumps"] : List Word).length ⟨[], []⟩ =
        some (Cost.fin 0, st') ∧
      lookupM (0, ([chars "fox", chars "jumps"] : List Word).length)
        st'.memo = some (Cost.fin 0) ∧
      lookupP 0 st'.parent =
        some ([chars "fox", chars "jumps"] : List Word).length) ∧
    (∃ lines c, kpLines idShuffle (chars "hello world") 11 = some lines ∧
      lines.getLast? =
        some (packed ((pySplit (chars "hello world")).drop c)) ∧
      ((packed ((pySplit (chars "hello world")).drop c)).length ≤ 11 →
        ∃ lastLine, lines.getLast? = some lastLine ∧
          lastLine.length ≤ 11))) :=
  ⟨by decide,
    C6_terminal_exemption [chars "fox", chars "jumps"] 12 4 0 ⟨[], []⟩
      idShuffle (chars "hello world") 11 idShuffle_perm
      (Inv_empty _ _) (by decide) (by decide) (by decide)⟩

/-- C7: FALSE as stated.  After `best_break(0, N)` on "aa bb" with
width 2 (a nonempty document whose longest word does not exceed the
width), the populated break-point entry for start index 2 = N maps
to 2 itself — the terminal base case records `parent[N] = N` — which
is not strictly greater than its key. -/
theorem C7_counterexample :
    (bestBreakF (pySplit (chars "aa bb")) 2 4 0
        (pySplit (chars "aa bb")).length ⟨[], []⟩).map
      (fun r => lookupP 2 r.2.parent) = some (some 2) ∧
    ¬ (2 < 2) := ⟨rfl, by decide⟩

/-- C7 (amended): after `best_break(0, N)` from a fresh state, every
populated break-point entry with start index below `N` maps to a
strictly larger index at most `N`; the entry at start index `N`
itself (written by the terminal case) maps to `N`; and following the
map from 0 reaches exactly `N` in finitely many strictly increasing
hops. -/
theorem C7_amended (ws : List Word) (w fuel : Nat)
    (hfuel : ws.length < fuel) :
    ∃ v st', bestBreakF ws w fuel 0 ws.length ⟨[], []⟩ = some (v, st') ∧
      (∀ e ∈ st'.parent, e.1 ≤ ws.length ∧
        (e.1 < ws.length → e.1 < e.2 ∧ e.2 ≤ ws.length) ∧
        (e.1 = ws.length → e.2 = ws.length)) ∧
      (∃ hops : List Nat, hops.head? = some 0 ∧
        hops.getLast? = some ws.length ∧
        hops.Chain' (fun x y => lookupP x st'.parent = some y) ∧
        hops.Chain' (fun x y => x < y)) := by
  obtain ⟨st', heq, hInv', _, _, hsel, hrange, hall, _⟩ :=
    bestBreakF_ok ws w fuel 0 ⟨[], []⟩ (Inv_empty _ _) (by omega) (by omega)
  refine ⟨_, st', heq, ?_, ?_⟩
  · intro e he
    have hval := hInv'.parent_val e he
    have hkey : e.1 ≤ ws.length := by
      rcases hrange e he with h | h
      · simp at h
      · omega
    refine ⟨hkey, ?_, ?_⟩
    · intro hlt
      have hbnd := bbC_bounds ws w e.1 hlt
      rw [hval]
      exact hbnd
    · intro heqN
      rw [hval, heqN]
      exact bbC_eq_length_of_ge ws w ws.length (Nat.le_refl _)
  · by_cases hf : (packed (ws.drop 0)).length ≤ w
    · have hbb0 := bbP_fits ws w 0 hf
      have hlk0 : lookupP 0 st'.parent = some ws.length := by
        have h1 : lookupP 0 st'.parent = some ((bbP ws w 0).2) :=
          lookupP_eq st'.parent (fun k => (bbP ws w k).2)
            hInv'.parent_val 0 _ hsel
        rw [hbb0] at h1
        exact h1
      by_cases hN0 : ws.length = 0
      · exact ⟨[0], rfl, by rw [hN0]; rfl, List.chain'_singleton _,
          List.chain'_singleton _⟩
      · refine ⟨[0, ws.length], rfl, rfl, ?_, ?_⟩
        · rw [List.chain'_cons]
          exact ⟨hlk0, List.chain'_singleton _⟩
        · rw [List.chain'_cons]
          exact ⟨by omega, List.chain'_singleton _⟩
    · have hkeys : ∀ k, k < ws.length → ∃ b2, (k, b2) ∈ st'.parent := by
        intro k hk
        cases Nat.eq_zero_or_pos k with
        | inl h0 => rw [h0]; exact ⟨_, hsel⟩
        | inr hpos => exact ⟨_, hall rfl hf k hpos (by omega)⟩
      exact chain_reaches ws w st'.parent hInv'.parent_val hkeys
        ws.length 0 (by omega) (by omega)

theorem C7_witness :
    ∃ v st', bestBreakF [chars "aa", chars "bb"] 2 3 0
        ([chars "aa", chars "bb"] : List Word).length ⟨[], []⟩ =
        some (v, st') ∧
      (∀ e ∈ st'.parent, e.1 ≤ ([chars "aa", chars "bb"] : List Word).length ∧
        (e.1 < ([chars "aa", chars "bb"] : List Word).length →
          e.1 < e.2 ∧ e.2 ≤ ([chars "aa", chars "bb"] : List Word).length) ∧
        (e.1 = ([chars "aa", chars "bb"] : List Word).length →
          e.2 = ([chars "aa", chars "bb"] : List Word).length)) ∧
      (∃ hops : List Nat, hops.head? = some 0 ∧
        hops.getLast? = some ([chars "aa", chars "bb"] : List Word).length ∧
        hops.Chain' (fun x y => lookupP x st'.parent = some y) ∧
        hops.Chain' (fun x y => x < y)) :=
  C7_amended [chars "aa", chars "bb"] 2 3 (by decide)

/-- C10: every non-final segment selected by the break planner that
contains two or more words has packed length at most the width;
consequently the gap computation (the space-distribution loop) of
`expanded` terminates on it, and every interior gap — before and
after the shuffle — receives at least one space. -/
theorem C10_planner_lines (sh : List Char → List Nat → List Nat)
    (hperm : ∀ s l, (sh s l).Perm l) (text : List Char) (w : Nat)
    (p : Nat × Nat) (hp : p ∈ segsP (pySplit text) w 0)
    (hnf : p.2 ≠ (pySplit text).length)
    (h2 : 2 ≤ (slice (pySplit text) p.1 p.2).length) :
    (packed (slice (pySplit text) p.1 p.2)).length ≤ w ∧
    ∃ gs, gapsFor (slice (pySplit text) p.1 p.2) w = some gs ∧
      (∀ g ∈ gs, 1 ≤ g) ∧
      (∀ g ∈ sh (slice (pySplit text) p.1 p.2).flatten gs, 1 ≤ g) ∧
      ∃ line, expandedF sh (slice (pySplit text) p.1 p.2) w = some line := by
  obtain ⟨hpb, _⟩ := segsP_mem (pySplit text) w (pySplit text).length 0
    (by omega) p hp
  have hbne : (bbP (pySplit text) w p.1).2 ≠ (pySplit text).length := by
    rw [← hpb]; exact hnf
  have ha : p.1 < (pySplit text).length :=
    lt_length_of_bbC_ne (pySplit text) w p.1 hbne
  have hb := bbC_bounds (pySplit text) w p.1 ha
  have hblt : (bbP (pySplit text) w p.1).2 < (pySplit text).length :=
    Nat.lt_of_le_of_ne hb.2 hbne
  have hfits := (bbC_fits_of_lt (pySplit text) w p.1 hblt).2
  rw [hpb] at h2 ⊢
  refine ⟨hfits, ?_⟩
  obtain ⟨gs, hgs, _, hge, _, _, hex⟩ := expandedF_ok sh _ w h2 hfits
  exact ⟨gs, hgs, hge,
    fun g hg => hge g ((hperm _ gs).mem_iff.1 hg), _, hex⟩

theorem C10_witness :
    ((0, 2) ∈ segsP (pySplit (chars "The quick brown fox jumps")) 12 0) ∧
    ((packed (slice (pySplit (chars "The quick brown fox jumps")) 0 2)).length
        ≤ 12 ∧
      ∃ gs, gapsFor
          (slice (pySplit (chars "The quick brown fox jumps")) 0 2) 12 =
          some gs ∧
        (∀ g ∈ gs, 1 ≤ g) ∧
        (∀ g ∈ idShuffle
            (slice (pySplit (chars "The quick brown fox jumps")) 0 2).flatten
            gs, 1 ≤ g) ∧
        ∃ line, expandedF idShuffle
            (slice (pySplit (chars "The quick brown fox jumps")) 0 2) 12 =
            some line) :=
  ⟨by rw [demo_pySplit, demo_segs]; decide,
    C10_planner_lines idShuffle idShuffle_perm
      (chars "The quick brown fox jumps") 12 (0, 2)
      (by rw [demo_pySplit, demo_segs]; decide)
      (by rw [demo_pySplit]; decide)
      (by rw [demo_pySplit]; decide)⟩

end Justified
